import Mathlib

/-!
Verification of the `proximity` approximate-match caching library.

The development shallowly embeds the Rust sources under `src/core/src/`:
the `ApproxComparable` trait and its instances (`numerics/comp.rs`),
the `F32Vector` numeric kernel (`numerics/f32vector.rs`), the FIFO cache
(`caching/fifo/fifo_cache.rs`), the LRU cache (`caching/lru/lru_cache.rs`,
`caching/lru/map_entry.rs`, `caching/bounded/linked_list.rs`), the SimHash
hasher (`caching/lsh/hasher.rs`) and the LSH dispatcher
(`caching/lsh/lsh_cache.rs`).

Floating point model: `f32` values are modelled by the type `Flt` below —
exact rationals together with `nan`, `+inf`, `-inf`, and a symbolic
square-root form `scaled c r` denoting `c / sqrt r` (needed because the
sources compute `sqrt` of squared distances and `1/norm` scalings).
Arithmetic is exact (IEEE rounding is not modelled); the special values
propagate as in IEEE-754, and the partial comparison used by the caches'
`min_by` is faithful to `f32::partial_cmp` (`nan` compares to nothing).
The correctness of the symbolic comparison against real-number semantics
is established by `cmpF_char` below, so no theorem in this file depends
on the symbolic encoding by fiat.
-/

namespace Proximity

/-- Model of an `f32` value: `fin q` is the finite value `q`, `scaled c r`
is the value `c / sqrt r` (meaningful for `0 < r`; it arises only from
`sqrt` and `normalize`), plus the IEEE specials. -/
inductive Flt : Type where
  | nan : Flt
  | pinf : Flt
  | ninf : Flt
  | fin (q : ℚ) : Flt
  | scaled (c r : ℚ) : Flt
deriving DecidableEq

namespace Flt

/-- Three-way comparison on the rationals. -/
def ord3 (x y : ℚ) : Ordering :=
  if x < y then Ordering.lt else if x = y then Ordering.eq else Ordering.gt

/-- Three-way comparison of `c / sqrt r` against `c2 / sqrt r2`
(for positive radicands), by sign analysis and cross-multiplied squares. -/
def cmpSS (c r c2 r2 : ℚ) : Ordering :=
  if c < 0 then
    if c2 < 0 then ord3 (c2 * c2 * r) (c * c * r2) else Ordering.lt
  else
    if c2 < 0 then Ordering.gt else ord3 (c * c * r2) (c2 * c2 * r)

/-- Model of `f32::partial_cmp`: `none` iff an operand is `nan`
(Rust returns `None` exactly then), otherwise the total order of the
denoted extended reals. A finite `q` is compared as `q / sqrt 1`. -/
def cmpF : Flt → Flt → Option Ordering
  | nan, _ => none
  | _, nan => none
  | ninf, ninf => some Ordering.eq
  | ninf, _ => some Ordering.lt
  | _, ninf => some Ordering.gt
  | pinf, pinf => some Ordering.eq
  | pinf, _ => some Ordering.gt
  | _, pinf => some Ordering.lt
  | fin a, fin b => some (ord3 a b)
  | fin a, scaled c r => some (cmpSS a 1 c r)
  | scaled c r, fin b => some (cmpSS c r b 1)
  | scaled c r, scaled c2 r2 => some (cmpSS c r c2 r2)

/-- Model of `f32` `<` (IEEE: false on `nan`). -/
def ltB (x y : Flt) : Bool := decide (cmpF x y = some Ordering.lt)

/-- Model of `f32` `==` (IEEE: false on `nan`). -/
def eqB (x y : Flt) : Bool := decide (cmpF x y = some Ordering.eq)

/-- Model of `f32` `>=` (IEEE: false on `nan`). -/
def geB (x y : Flt) : Bool :=
  decide (cmpF x y = some Ordering.gt) || decide (cmpF x y = some Ordering.eq)

def isNan : Flt → Bool
  | nan => true
  | _ => false

def isFin : Flt → Bool
  | fin _ => true
  | _ => false

/-- An atomic `f32` datum (no symbolic square root): what vector
components and tolerances handed to the library look like. -/
def atomic : Flt → Bool
  | scaled _ _ => false
  | _ => true

/-- Well-formed comparison operand: not `nan`, and any symbolic
square root has a positive radicand. -/
def wf : Flt → Bool
  | nan => false
  | scaled _ r => 0 < r
  | _ => true

/-- Negation (exact; IEEE negation is exact). -/
def negF : Flt → Flt
  | nan => nan
  | pinf => ninf
  | ninf => pinf
  | fin q => fin (-q)
  | scaled c r => scaled (-c) r

/-- Model of `f32::abs` (exact in IEEE). -/
def absF : Flt → Flt
  | nan => nan
  | pinf => pinf
  | ninf => pinf
  | fin q => fin |q|
  | scaled c r => scaled |c| r

/-- Addition. Exact on finite rationals; IEEE special propagation:
`nan` absorbs, `+inf + -inf = nan`. Symbolic square roots add only
against an exact zero or a like radicand (the only shapes the modelled
code paths produce); other mixes do not arise and yield `nan`. -/
def addF : Flt → Flt → Flt
  | nan, _ => nan
  | _, nan => nan
  | pinf, ninf => nan
  | ninf, pinf => nan
  | pinf, _ => pinf
  | _, pinf => pinf
  | ninf, _ => ninf
  | _, ninf => ninf
  | fin a, fin b => fin (a + b)
  | fin a, scaled c r => if a = 0 then scaled c r else nan
  | scaled c r, fin b => if b = 0 then scaled c r else nan
  | scaled c r, scaled c2 r2 => if r = r2 then scaled (c + c2) r else nan

/-- Subtraction (exact on finite rationals, IEEE specials). -/
def subF : Flt → Flt → Flt
  | nan, _ => nan
  | _, nan => nan
  | pinf, pinf => nan
  | ninf, ninf => nan
  | pinf, _ => pinf
  | ninf, _ => ninf
  | _, pinf => ninf
  | _, ninf => pinf
  | fin a, fin b => fin (a - b)
  | fin a, scaled c r => if a = 0 then scaled (-c) r else nan
  | scaled c r, fin b => if b = 0 then scaled c r else nan
  | scaled c r, scaled c2 r2 => if r = r2 then scaled (c - c2) r else nan

/-- Sign of the denoted value of a non-`nan` `Flt` (for inf multiplication). -/
def sgn : Flt → Int
  | nan => 0
  | pinf => 1
  | ninf => -1
  | fin q => if q < 0 then -1 else if q = 0 then 0 else 1
  | scaled c _ => if c < 0 then -1 else if c = 0 then 0 else 1

/-- Multiplication. Exact on rationals and symbolic roots
(`(c/sqrt r) * (c2/sqrt r2) = c*c2 / sqrt (r*r2)`); IEEE specials:
`nan` absorbs, `0 * inf = nan`, signed infinities. -/
def mulF : Flt → Flt → Flt
  | nan, _ => nan
  | _, nan => nan
  | pinf, y => if sgn y = 0 then nan else if sgn y = 1 then pinf else ninf
  | x, pinf => if sgn x = 0 then nan else if sgn x = 1 then pinf else ninf
  | ninf, y => if sgn y = 0 then nan else if sgn y = 1 then ninf else pinf
  | x, ninf => if sgn x = 0 then nan else if sgn x = 1 then ninf else pinf
  | fin a, fin b => fin (a * b)
  | fin a, scaled c r => scaled (a * c) r
  | scaled c r, fin b => scaled (c * b) r
  | scaled c r, scaled c2 r2 => scaled (c * c2) (r * r2)

/-- Model of `f32::sqrt`: `nan` on negative input, exact at `0`,
symbolic `sqrt q = q / sqrt q` otherwise. A square root of a symbolic
root does not arise in the modelled code and yields `nan`. -/
def sqrtF : Flt → Flt
  | nan => nan
  | ninf => nan
  | pinf => pinf
  | fin q => if q < 0 then nan else if q = 0 then fin 0 else scaled q q
  | scaled _ _ => nan

/-- Division, used by the sources only as `1.0 / norm` and elementwise
scaling; defined on the shapes that arise (finite by finite, finite by
symbolic root, by zero with IEEE signed-infinity results). -/
def divF : Flt → Flt → Flt
  | nan, _ => nan
  | _, nan => nan
  | fin a, fin b =>
      if b = 0 then (if a = 0 then nan else if a < 0 then ninf else pinf)
      else fin (a / b)
  | fin a, scaled c r =>
      if c = 0 then (if a = 0 then nan else if a < 0 then ninf else pinf)
      else scaled (a * r / c) r
  | fin _, pinf => fin 0
  | fin _, ninf => fin 0
  | _, _ => nan

end Flt

/-! Real-number semantics of `Flt` and soundness of `cmpF`.

`fval` interprets a non-`nan` well-formed `Flt` in the extended reals;
`cmpF_char` proves that `cmpF` computes exactly the comparison of the
denoted values. Everything downstream about orderings of fuzziness
values rests on this characterisation, not on the encoding. -/

/-- Denotation of a non-`nan` `Flt` in the extended reals
(the value of `nan` is irrelevant and set to `0`). -/
noncomputable def fval : Flt → EReal
  | Flt.nan => (0 : ℝ)
  | Flt.pinf => ⊤
  | Flt.ninf => ⊥
  | Flt.fin q => ((q : ℝ) : EReal)
  | Flt.scaled c r => (((c : ℝ) / Real.sqrt (r : ℝ) : ℝ) : EReal)

/-- Real-valued three-way comparison matching `Flt.ord3`'s shape. -/
noncomputable def rord3 (x y : ℝ) : Ordering :=
  if x < y then Ordering.lt else if x = y then Ordering.eq else Ordering.gt

/-- Extended-real three-way comparison. -/
noncomputable def erord3 (x y : EReal) : Ordering :=
  if x < y then Ordering.lt else if x = y then Ordering.eq else Ordering.gt

/-! The numeric kernel over `f32` slices (`numerics/f32vector.rs`).

`l2_dist_squared` and `dot` iterate `chunks_exact(8)` over both slices
and zip the chunk iterators, so exactly `8 * min (len a / 8) (len b / 8)`
element pairs are consumed (a trailing partial chunk, and the longer
slice's excess, are silently dropped — as documented in the source for
release builds). The source accumulates per SIMD lane and then reduces
horizontally; in the exact arithmetic of the model, `addF` restricted to
the values that arise here is commutative and associative (`nan`
absorbs, a `+inf` term absorbs among non-`nan` terms of like radicand),
so the lane-order of the accumulation is immaterial and a sequential
fold is an equal definition. -/

/-- Number of elements consumed by the zipped `chunks_exact(8)` loops. -/
def kernelLen (a b : List Flt) : ℕ := 8 * (min (a.length / 8) (b.length / 8))

/-- Model of `F32Vector::l2_dist_squared`: lane-accumulated sum of
squared differences over the zipped exact chunks. -/
def l2DistSq (a b : List Flt) : Flt :=
  (((a.zip b).take (kernelLen a b)).map
    (fun p => Flt.mulF (Flt.subF p.1 p.2) (Flt.subF p.1 p.2))).foldl Flt.addF (Flt.fin 0)

/-- Model of `F32Vector::dot`: lane-accumulated sum of products over the
zipped exact chunks. -/
def dotF (a b : List Flt) : Flt :=
  (((a.zip b).take (kernelLen a b)).map
    (fun p => Flt.mulF p.1 p.2)).foldl Flt.addF (Flt.fin 0)

/-- Model of `F32Vector::normalized`: divide by the L2 norm computed as
`sqrt (dot self self)`; if the norm compares equal to `0.0`, return a
zero vector of the full input length; otherwise scale each element of
the exact chunks by `1.0 / norm` (output length `8 * (len / 8)`). -/
def normalizedF (a : List Flt) : List Flt :=
  let norm := Flt.sqrtF (dotF a a)
  if Flt.eqB norm (Flt.fin 0) then List.replicate a.length (Flt.fin 0)
  else
    let invNorm := Flt.divF (Flt.fin 1) norm
    (a.take (8 * (a.length / 8))).map (fun x => Flt.mulF x invNorm)

/-! The `ApproxComparable` trait (`numerics/comp.rs`) and the caches.

The caches are generic over the key's comparison capability exactly as
the Rust code is generic over `K: ApproxComparable`; an `ApproxCmp K`
packages `fuzziness` and `roughly_matches`. -/

/-- A key type's `ApproxComparable` capability: `fuzz a b` models
`a.fuzziness(&b)` and `rmatches a b tol` models `a.roughly_matches(&b, tol)`. -/
structure ApproxCmp (K : Type) where
  fuzz : K → K → Flt
  rmatches : K → K → Flt → Bool

/-- The trait's provided default `roughly_matches`:
`self.fuzziness(instore) < tolerance`. -/
def defaultMatches {K : Type} (fz : K → K → Flt) (a b : K) (tol : Flt) : Bool :=
  Flt.ltB (fz a b) tol

/-- The `f32` instance: `fuzziness = (self - instore).abs()`, default
`roughly_matches`. The `i16` instance widens to `f32` and behaves
identically on integral values. -/
def f32Fuzz (a b : Flt) : Flt := Flt.absF (Flt.subF a b)

def f32Cmp : ApproxCmp Flt := ⟨f32Fuzz, defaultMatches f32Fuzz⟩

/-- The `F32Vector` instance's `fuzziness`: `sqrt (l2_dist_squared)`. -/
def vecFuzz (a b : List Flt) : Flt := Flt.sqrtF (l2DistSq a b)

/-- The `F32Vector` instance overrides `roughly_matches` to the
square-root-free `l2_dist_squared self target < tolerance * tolerance`. -/
def vecMatches (a b : List Flt) (tol : Flt) : Bool :=
  Flt.ltB (l2DistSq a b) (Flt.mulF tol tol)

def vecCmp : ApproxCmp (List Flt) := ⟨vecFuzz, vecMatches⟩

/-! Rust's `Iterator::min_by` with a panicking `partial_cmp(..).unwrap()`
comparator, as used by both caches' `find`. The iterator folds keeping
the accumulator unless the comparator answers `Greater`, so the first
of several minima wins; the whole computation is `none` (models the
`unwrap` panic) when a comparison of two candidates is undefined. -/

/-- The fold inside `min_by`: `none` models a comparator panic. -/
def minByFuzz {α : Type} (fz : α → Flt) : α → List α → Option α
  | acc, [] => some acc
  | acc, y :: ys =>
    match Flt.cmpF (fz acc) (fz y) with
    | none => none
    | some Ordering.gt => minByFuzz fz y ys
    | some _ => minByFuzz fz acc ys

/-- `min_by` on a whole iterator: `some none` when the iterator is empty
(Rust returns `None` without comparing), `none` on a comparator panic. -/
def rustMinBy {α : Type} (fz : α → Flt) : List α → Option (Option α)
  | [] => some none
  | x :: xs => (minByFuzz fz x xs).map some

/-- Specification of `min_by` written from the spec text: the first
element whose fuzziness is not greater than any element's (the smallest
fuzziness, ties resolved toward the earlier element). -/
def specMinBy {α : Type} (fz : α → Flt) (l : List α) : Option α :=
  l.find? (fun e =>
    l.all (fun e2 => !(decide (Flt.cmpF (fz e) (fz e2) = some Ordering.gt))))

/-! FIFO cache (`caching/fifo/fifo_cache.rs`). The `VecDeque` is listed
front to back, so the head of the list is the oldest entry. -/

/-- One stored entry: `CacheLine { key, tol, value }`. -/
structure CacheLine (K V : Type) where
  key : K
  tol : Flt
  value : V
deriving DecidableEq

structure FifoCache (K V : Type) where
  maxCapacity : ℕ
  items : List (CacheLine K V)
deriving DecidableEq

/-- Model of `FifoCache::new`: `assert!(max_capacity > 0)` (a `none`
result models the panic), then an empty deque. -/
def fifoNew (K V : Type) (maxCapacity : ℕ) : Option (FifoCache K V) :=
  if 0 < maxCapacity then some ⟨maxCapacity, []⟩ else none

/-- Model of `FifoCache::find`: filter the entries that roughly match
the target within their own stored tolerance, take the minimum by
`fuzziness(target, key)` (panic on an undefined comparison), and clone
the winner's value. The borrow is `&mut self` but the body never writes
`self.items`, so the state component of the result is the input state.
Result: `(none, _)` models the panic, `(some none, _)` a miss. -/
def fifoFind {K V : Type} (acmp : ApproxCmp K) (s : FifoCache K V) (q : K) :
    Option (Option V) × FifoCache K V :=
  match rustMinBy (fun e => acmp.fuzz q e.key)
      (s.items.filter (fun e => acmp.rmatches e.key q e.tol)) with
  | none => (none, s)
  | some none => (some none, s)
  | some (some e) => (some (some e.value), s)

/-- Model of `FifoCache::insert`: push the new entry at the back, then
pop the front if the length now exceeds the capacity. -/
def fifoInsert {K V : Type} (s : FifoCache K V) (k : K) (v : V) (tol : Flt) :
    FifoCache K V :=
  let items1 := s.items ++ [⟨k, tol, v⟩]
  if s.maxCapacity < items1.length then ⟨s.maxCapacity, items1.tail⟩
  else ⟨s.maxCapacity, items1⟩

def fifoLen {K V : Type} (s : FifoCache K V) : ℕ := s.items.length

/-- Specification of `FifoCache::find` written from the spec text: among
the entries matching the query within their own tolerance, the value of
the first (oldest) entry whose fuzziness is less than or equal to every
matching entry's fuzziness; `none` when nothing matches. -/
def specFifoFind {K V : Type} (acmp : ApproxCmp K) (s : FifoCache K V) (q : K) :
    Option V :=
  (specMinBy (fun e => acmp.fuzz q e.key)
    (s.items.filter (fun e => acmp.rmatches e.key q e.tol))).map (fun e => e.value)

/-! LRU cache (`caching/lru/lru_cache.rs`, `caching/lru/map_entry.rs`,
`caching/bounded/linked_list.rs`, `list_node.rs`).

A list node is a reference-counted cell whose `key` (a `MapEntry`) and
`value` never change after creation; only its `prev`/`next` links do.
The model therefore represents a node by an immutable record carrying a
fresh identifier (`nid`, modelling `Rc` pointer identity) and the
doubly-linked recency list by the head-to-tail list of nodes. The
`HashMap` from `MapEntry` to node is modelled as an association list;
its iteration order (which Rust leaves unspecified) is the insertion
order with in-place replacement — no theorem below depends on a tie
being resolved at one position of that order rather than another. -/

/-- `MapEntry { key, tolerance }` (`caching/lru/map_entry.rs`). -/
structure MapEntryM (K : Type) where
  key : K
  tol : Flt
deriving DecidableEq

/-- `PartialEq for MapEntry`: key equality (the `K: Eq` contract, a
lawful equivalence, modelled by decidable equality) and IEEE `f32`
equality on the tolerance — so an entry with a `nan` tolerance is not
equal to itself, exactly as in the source. -/
def mapEntryEq {K : Type} [DecidableEq K] (a b : MapEntryM K) : Bool :=
  decide (a.key = b.key) && Flt.eqB a.tol b.tol

/-- A linked-list node: `Node { key: MapEntry, value }` plus the `Rc`
identity `nid`. -/
structure NodeM (K V : Type) where
  nid : ℕ
  entry : MapEntryM K
  val : V
deriving DecidableEq

structure LruState (K V : Type) where
  maxCapacity : ℕ
  map : List (MapEntryM K × NodeM K V)
  list : List (NodeM K V)
  nextId : ℕ
deriving DecidableEq

/-- `HashMap::insert`: replace the value of the entry equal to the key
(keeping the stored key object), else add a new entry. -/
def mapInsert {K V : Type} [DecidableEq K] :
    List (MapEntryM K × NodeM K V) → MapEntryM K → NodeM K V →
      List (MapEntryM K × NodeM K V)
  | [], e, n => [(e, n)]
  | p :: ps, e, n =>
    if mapEntryEq p.1 e then (p.1, n) :: ps else p :: mapInsert ps e n

/-- `HashMap::remove`: drop the entry equal to the key, if any. -/
def mapRemove {K V : Type} [DecidableEq K]
    (m : List (MapEntryM K × NodeM K V)) (e : MapEntryM K) :
    List (MapEntryM K × NodeM K V) :=
  m.eraseP (fun p => mapEntryEq p.1 e)

/-- `HashMap::get`. -/
def mapGet {K V : Type} [DecidableEq K]
    (m : List (MapEntryM K × NodeM K V)) (e : MapEntryM K) :
    Option (NodeM K V) :=
  (m.find? (fun p => mapEntryEq p.1 e)).map (fun p => p.2)

/-- Model of `LRUCache::new`: `assert!(max_capacity > 0)`. -/
def lruNew (K V : Type) (maxCapacity : ℕ) : Option (LruState K V) :=
  if 0 < maxCapacity then some ⟨maxCapacity, [], [], 0⟩ else none

/-- The eviction step at the head of `LRUCache::insert`: if
`len() >= max_capacity`, remove the recency list's tail node and remove
its `MapEntry` key from the map. Returns the surviving map and list. -/
def lruEvict {K V : Type} [DecidableEq K] (s : LruState K V) :
    List (MapEntryM K × NodeM K V) × List (NodeM K V) :=
  if s.maxCapacity ≤ s.map.length then
    match s.list.getLast? with
    | none => (s.map, s.list)
    | some t => (mapRemove s.map t.entry, s.list.dropLast)
  else (s.map, s.list)

/-- Model of `LRUCache::insert`: evict if at capacity, then allocate a
fresh node for the new `(key, tolerance)`, link it at the head, and
insert it into the map. -/
def lruInsert {K V : Type} [DecidableEq K]
    (s : LruState K V) (k : K) (v : V) (tol : Flt) : LruState K V :=
  let evicted := lruEvict s
  let e : MapEntryM K := ⟨k, tol⟩
  let n : NodeM K V := ⟨s.nextId, e, v⟩
  ⟨s.maxCapacity, mapInsert evicted.1 e n, n :: evicted.2, s.nextId + 1⟩

/-- Model of `LRUCache::find`: take the minimum-fuzziness matching key
of the map (panic, modelled by `none`, on an undefined comparison); look
its node up in the map (`?` on failure — reachable when the candidate
has a `nan` tolerance and is equal to nothing); unlink that node and
relink it at the head; return a clone of its value. -/
def lruFind {K V : Type} [DecidableEq K] (acmp : ApproxCmp K)
    (s : LruState K V) (q : K) : Option (Option V × LruState K V) :=
  match rustMinBy (fun p => acmp.fuzz q p.1.key)
      (s.map.filter (fun p => acmp.rmatches p.1.key q p.1.tol)) with
  | none => none
  | some none => some (none, s)
  | some (some cand) =>
    match mapGet s.map cand.1 with
    | none => some (none, s)
    | some node =>
      some (some node.val,
        ⟨s.maxCapacity, s.map, node :: s.list.eraseP (fun m => m.nid == node.nid),
          s.nextId⟩)

def lruLen {K V : Type} (s : LruState K V) : ℕ := s.map.length

/-! Instrumented LRU execution. The state evolution is exactly
`lruInsert`/`lruFind`; alongside it the runner keeps ghost data that the
cache does not store: a logical clock, the clock value at which each
node (by identity) was created or last promoted, and an `ok` flag that
records whether the run stayed inside the regime of claim C4's amended
statement (no panic, every inserted `(key, tolerance)` self-equal and
not already present in the index). -/

inductive LruOp (K V : Type) where
  | ins (k : K) (v : V) (tol : Flt) : LruOp K V
  | qry (q : K) : LruOp K V

structure LruExec (K V : Type) where
  st : LruState K V
  clock : ℕ
  stamps : List (ℕ × ℕ)
  ok : Bool

def lruStep {K V : Type} [DecidableEq K] (acmp : ApproxCmp K)
    (E : LruExec K V) (op : LruOp K V) : LruExec K V :=
  match op with
  | LruOp.ins k v tol =>
    ⟨lruInsert E.st k v tol, E.clock + 1, (E.st.nextId, E.clock) :: E.stamps,
      E.ok && (Flt.atomic tol && Flt.eqB tol tol &&
        !(E.st.map.any (fun p => mapEntryEq p.1 ⟨k, tol⟩)))⟩
  | LruOp.qry q =>
    match lruFind acmp E.st q with
    | none => ⟨E.st, E.clock, E.stamps, false⟩
    | some (none, s2) => ⟨s2, E.clock, E.stamps, E.ok⟩
    | some (some _, s2) =>
      match s2.list.head? with
      | some n => ⟨s2, E.clock + 1, (n.nid, E.clock) :: E.stamps, E.ok⟩
      | none => ⟨s2, E.clock, E.stamps, false⟩

def lruRun {K V : Type} [DecidableEq K] (acmp : ApproxCmp K)
    (maxCapacity : ℕ) (ops : List (LruOp K V)) : LruExec K V :=
  ops.foldl (lruStep acmp) ⟨⟨maxCapacity, [], [], 0⟩, 0, [], true⟩

/-- The ghost clock at which a node was created or last promoted. -/
def stampOf {K V : Type} (E : LruExec K V) (n : NodeM K V) : ℕ :=
  (E.stamps.lookup n.nid).getD 0

/-- The reachable-state invariant behind claim C4's amended statement:
each index pair couples a key with the node carrying the same
`MapEntry`; the index's nodes are a permutation of the recency list;
node identities in the list are distinct and below the allocator
counter; stored tolerances are ordinary self-`==` `f32` data; distinct
index keys are never `==`-equal; and the ghost stamps of the list
strictly decrease head to tail and stay below the ghost clock (so the
list enumerates most-recent to least-recent). -/
def lruInv {K V : Type} [DecidableEq K] (E : LruExec K V) : Prop :=
  (∀ p ∈ E.st.map, p.1 = p.2.entry) ∧
  (E.st.map.map Prod.snd).Perm E.st.list ∧
  (E.st.list.map NodeM.nid).Nodup ∧
  (∀ n ∈ E.st.list, n.nid < E.st.nextId) ∧
  (∀ p ∈ E.st.map, Flt.atomic p.1.tol = true ∧ Flt.eqB p.1.tol p.1.tol = true) ∧
  E.st.map.Pairwise (fun p q => mapEntryEq p.1 q.1 = false) ∧
  (∀ n ∈ E.st.list, stampOf E n < E.clock) ∧
  E.st.list.Pairwise (fun a b => stampOf E b < stampOf E a)

/-! SimHash hasher (`caching/lsh/hasher.rs`) and the LSH dispatcher
(`caching/lsh/lsh_cache.rs`).

The `VectorLike` implementation for `&[f32]` (providing `dot` and
`normalized` to the hasher and the dispatcher) is not present under
`src/`; per the spec (section 4.1) those operations are the kernel's
`dot` and `normalize`, which coincide with the `F32Vector` methods that
are in `src/`, so `dotF` and `normalizedF` above are used for it. -/

structure SimHashHasher where
  storedVectorsDim : ℕ
  projections : List (List Flt)
deriving DecidableEq

/-- Model of `SimHashHasher::with_rng`: asserts that the dimension is a
multiple of the SIMD lane count (8), then samples `num_hash` rows of
`dim` values from the RNG, modelled as a given stream of finite values
(`StandardNormal` never yields `nan` or infinities). -/
def simHashWithRng (stream : ℕ → ℚ) (numHash dim : ℕ) : Option SimHashHasher :=
  if dim % 8 = 0 then
    some ⟨dim, (List.range numHash).map (fun i =>
      (List.range dim).map (fun j => Flt.fin (stream (i * dim + j))))⟩
  else none

/-- Model of `SimHashHasher::hash`: one bit per hyperplane, set iff the
dot product with the plane compares `>= 0.0`. -/
def simHashHash (h : SimHashHasher) (vector : List Flt) : List Bool :=
  h.projections.map (fun proj => Flt.geB (dotF vector proj) (Flt.fin 0))

/-- The capability the dispatcher requires of its inner cache
(`DefaultApproximateCache` plus `ApproximateCache`): construct with a
capacity (the constructor may panic), find (which may mutate the bucket
and may panic), insert, length. -/
structure InnerOps (K V C : Type) where
  fromCapacity : ℕ → Option C
  cfind : C → K → Option (Option V × C)
  cinsert : C → K → V → Flt → C
  clen : C → ℕ

structure LshCache (C : Type) where
  hasher : SimHashHasher
  buckets : List (List Bool × C)
  bucketCapacity : ℕ
deriving DecidableEq

/-- Model of `LshCache::new`: build the hasher (whose constructor
asserts the dimension; `none` models that panic) and an empty bucket
map. There is no assertion on `bucket_capacity`. -/
def lshNew (C : Type) (stream : ℕ → ℚ) (numHash dim bucketCapacity : ℕ) :
    Option (LshCache C) :=
  (simHashWithRng stream numHash dim).map (fun h => ⟨h, [], bucketCapacity⟩)

/-- Model of `LshCache::signature`: hash the L2-normalized key. -/
def lshSignature (h : SimHashHasher) (key : List Flt) : List Bool :=
  simHashHash h (normalizedF key)

/-- `HashMap::get_mut` on the bucket map (signatures compare by
structural equality of the bit vectors). -/
def bucketGet {C : Type} (bs : List (List Bool × C)) (sig : List Bool) :
    Option C :=
  (bs.find? (fun p => decide (p.1 = sig))).map (fun p => p.2)

/-- Write back a mutably borrowed bucket (replaces the entry in place;
used only when the signature is present). -/
def bucketSet {C : Type} : List (List Bool × C) → List Bool → C →
    List (List Bool × C)
  | [], _, _ => []
  | p :: ps, sig, c => if p.1 = sig then (sig, c) :: ps else p :: bucketSet ps sig c

/-- Model of `LshCache::find`: compute the signature of the (normalized)
target; if no bucket exists for it, return `None` (the `?`); otherwise
delegate to the bucket's `find`, which may mutate the bucket and may
panic (`none`). -/
def lshFind {K V C : Type} (ops : InnerOps K V C) (asRef : K → List Flt)
    (st : LshCache C) (q : K) : Option (Option V × LshCache C) :=
  match bucketGet st.buckets (lshSignature st.hasher (asRef q)) with
  | none => some (none, st)
  | some b =>
    match ops.cfind b q with
    | none => none
    | some rb =>
      some (rb.1,
        ⟨st.hasher, bucketSet st.buckets (lshSignature st.hasher (asRef q)) rb.2,
          st.bucketCapacity⟩)

/-- Model of `LshCache::insert`: compute the key's signature; create the
bucket on first use with `C::from_capacity(bucket_capacity)` (whose
panic is modelled by `none`); delegate the insert to the bucket. -/
def lshInsert {K V C : Type} (ops : InnerOps K V C) (asRef : K → List Flt)
    (st : LshCache C) (k : K) (v : V) (tol : Flt) : Option (LshCache C) :=
  match bucketGet st.buckets (lshSignature st.hasher (asRef k)) with
  | some b =>
    some ⟨st.hasher,
      bucketSet st.buckets (lshSignature st.hasher (asRef k)) (ops.cinsert b k v tol),
      st.bucketCapacity⟩
  | none =>
    (ops.fromCapacity st.bucketCapacity).map (fun b0 =>
      ⟨st.hasher, st.buckets ++ [(lshSignature st.hasher (asRef k), ops.cinsert b0 k v tol)],
        st.bucketCapacity⟩)

/-- Model of `LshCache::len`: the sum of the bucket lengths. -/
def lshLen {K V C : Type} (ops : InnerOps K V C) (st : LshCache C) : ℕ :=
  (st.buckets.map (fun p => ops.clen p.2)).sum

/-- The FIFO bucket policy for the dispatcher. Modelled from the spec:
the `DefaultApproximateCache` implementations are not under `src/`;
per spec section 4.6 the bucket is created by the configured inner
policy's constructor with the per-bucket capacity, i.e. `FifoCache::new`
with its `C > 0` assertion. -/
def fifoOps {K V : Type} (acmp : ApproxCmp K) : InnerOps K V (FifoCache K V) :=
  ⟨fun cap => fifoNew K V cap,
   fun c q =>
     match fifoFind acmp c q with
     | (none, _) => none
     | (some r, c2) => some (r, c2),
   fun c k v tol => fifoInsert c k v tol,
   fun c => fifoLen c⟩

/-! Bit-pattern equality and hashing of `F32Vector`
(`numerics/f32vector.rs`): `PartialEq` compares only the zipped element
pairs with `f32` `==`, while `Hash` feeds `to_bits` of every element. -/

/-- Model of `PartialEq for F32Vector`: all zipped pairs `==` (excess
elements of the longer vector are ignored by `zip`). -/
def f32vecEqRust (a b : List Flt) : Bool :=
  (a.zip b).all (fun p => Flt.eqB p.1 p.2)

/-- An injective code of a rational, for bit patterns. -/
def qCode (q : ℚ) : ℕ := Nat.pair q.num.natAbs (Nat.pair q.den (if q.num < 0 then 1 else 0))

/-- Model of `f32::to_bits`: one machine word per value. The IEEE bit
layout is not modelled; the theorems about the hash feed below use only
that `Hash for F32Vector` feeds exactly one word per element. -/
def fltBits : Flt → ℕ
  | Flt.nan => 0
  | Flt.pinf => 1
  | Flt.ninf => 2
  | Flt.fin q => 3 + 5 * qCode q
  | Flt.scaled c r => 4 + 5 * Nat.pair (qCode c) (qCode r)

/-- Model of `Hash for F32Vector`: the stream of words fed to the
hasher, one `to_bits` per element, over all elements. -/
def hashFeed (a : List Flt) : List ℕ := a.map fltBits

/-! Rational-list helpers for stating the computation lemmas about the
numeric kernel on vectors of ordinary finite `f32` data: `finL` injects
a rational list as a list of finite `Flt`s, `takePairs` is the pair list
consumed by the zipped `chunks_exact(8)` loops, and `qdot` the exact
rational value of `dot` on such inputs. -/

def finL (l : List ℚ) : List Flt := l.map Flt.fin

def takePairs (a b : List ℚ) : List (ℚ × ℚ) :=
  (a.zip b).take (8 * min (a.length / 8) (b.length / 8))

def qdot (a b : List ℚ) : ℚ := ((takePairs a b).map (fun p => p.1 * p.2)).sum

theorem ord3_lt {x y : ℚ} (h : x < y) : Flt.ord3 x y = Ordering.lt := by
  simp [Flt.ord3, h]

theorem ord3_eq {x y : ℚ} (h : x = y) : Flt.ord3 x y = Ordering.eq := by
  simp [Flt.ord3, h]

theorem ord3_gt {x y : ℚ} (h : y < x) : Flt.ord3 x y = Ordering.gt := by
  have h1 : ¬ x < y := not_lt.mpr h.le
  have h2 : x ≠ y := ne_of_gt h
  simp [Flt.ord3, h1, h2]

theorem rord3_lt {x y : ℝ} (h : x < y) : rord3 x y = Ordering.lt := by
  simp [rord3, h]

theorem rord3_eq {x y : ℝ} (h : x = y) : rord3 x y = Ordering.eq := by
  simp [rord3, h]

theorem rord3_gt {x y : ℝ} (h : y < x) : rord3 x y = Ordering.gt := by
  have h1 : ¬ x < y := not_lt.mpr h.le
  have h2 : x ≠ y := ne_of_gt h
  simp [rord3, h1, h2]

/-- Cross-multiplied squares compute the comparison of `a / sqrt p`
with `b / sqrt q` for non-negative numerators and positive radicands. -/
theorem ord3_div_sqrt (a b p q : ℚ) (hp : 0 < p) (hq : 0 < q)
    (ha : 0 ≤ a) (hb : 0 ≤ b) :
    Flt.ord3 (a * a * q) (b * b * p) =
      rord3 ((a : ℝ) / Real.sqrt (p : ℝ)) ((b : ℝ) / Real.sqrt (q : ℝ)) := by
  have hsp : (0 : ℝ) < Real.sqrt (p : ℝ) := Real.sqrt_pos.mpr (by exact_mod_cast hp)
  have hsq : (0 : ℝ) < Real.sqrt (q : ℝ) := Real.sqrt_pos.mpr (by exact_mod_cast hq)
  have hpp : (Real.sqrt (p : ℝ)) ^ 2 = (p : ℝ) := Real.sq_sqrt (by positivity)
  have hqq : (Real.sqrt (q : ℝ)) ^ 2 = (q : ℝ) := Real.sq_sqrt (by positivity)
  have har : (0 : ℝ) ≤ (a : ℝ) := by exact_mod_cast ha
  have hbr : (0 : ℝ) ≤ (b : ℝ) := by exact_mod_cast hb
  rcases lt_trichotomy ((a : ℝ) / Real.sqrt (p : ℝ)) ((b : ℝ) / Real.sqrt (q : ℝ)) with h | h | h
  · rw [rord3_lt h]
    rw [div_lt_div_iff hsp hsq] at h
    have hx : (a : ℝ) * (a : ℝ) * (q : ℝ) < (b : ℝ) * (b : ℝ) * (p : ℝ) := by
      nlinarith [mul_nonneg har hsq.le, mul_nonneg hbr hsp.le, hpp, hqq]
    exact ord3_lt (by exact_mod_cast hx)
  · rw [rord3_eq h]
    rw [div_eq_div_iff hsp.ne' hsq.ne'] at h
    have h2 : ((a : ℝ) * Real.sqrt (q : ℝ)) ^ 2 = ((b : ℝ) * Real.sqrt (p : ℝ)) ^ 2 := by
      rw [h]
    have hx : (a : ℝ) * (a : ℝ) * (q : ℝ) = (b : ℝ) * (b : ℝ) * (p : ℝ) := by
      calc (a : ℝ) * (a : ℝ) * (q : ℝ) = ((a : ℝ) * Real.sqrt (q : ℝ)) ^ 2 := by
            rw [mul_pow, hqq]; ring
        _ = ((b : ℝ) * Real.sqrt (p : ℝ)) ^ 2 := h2
        _ = (b : ℝ) * (b : ℝ) * (p : ℝ) := by rw [mul_pow, hpp]; ring
    exact ord3_eq (by exact_mod_cast hx)
  · rw [rord3_gt h]
    rw [div_lt_div_iff hsq hsp] at h
    have hx : (b : ℝ) * (b : ℝ) * (p : ℝ) < (a : ℝ) * (a : ℝ) * (q : ℝ) := by
      nlinarith [mul_nonneg har hsq.le, mul_nonneg hbr hsp.le, hpp, hqq]
    exact ord3_gt (by exact_mod_cast hx)

/-- Flipping both operands of a real comparison, with negation. -/
theorem rord3_neg (x y : ℝ) : rord3 (-y) (-x) = rord3 x y := by
  rcases lt_trichotomy x y with h | h | h
  · rw [rord3_lt h, rord3_lt (by linarith)]
  · rw [rord3_eq h, rord3_eq (by linarith)]
  · rw [rord3_gt h, rord3_gt (by linarith)]

/-- Soundness of the symbolic square-root comparison: for positive
radicands, `cmpSS` computes the real comparison of the denoted values. -/
theorem cmpSS_char (c r c2 r2 : ℚ) (hr : 0 < r) (hr2 : 0 < r2) :
    Flt.cmpSS c r c2 r2 =
      rord3 ((c : ℝ) / Real.sqrt (r : ℝ)) ((c2 : ℝ) / Real.sqrt (r2 : ℝ)) := by
  have hsr : (0 : ℝ) < Real.sqrt (r : ℝ) := Real.sqrt_pos.mpr (by exact_mod_cast hr)
  have hsr2 : (0 : ℝ) < Real.sqrt (r2 : ℝ) := Real.sqrt_pos.mpr (by exact_mod_cast hr2)
  unfold Flt.cmpSS
  by_cases hc : c < 0
  · by_cases hc2 : c2 < 0
    · simp only [if_pos hc, if_pos hc2]
      have hkey := ord3_div_sqrt (-c2) (-c) r2 r hr2 hr (by linarith) (by linarith)
      have e1 : (-c2 : ℚ) * (-c2) * r = c2 * c2 * r := by ring
      have e2 : (-c : ℚ) * (-c) * r2 = c * c * r2 := by ring
      rw [e1, e2] at hkey
      rw [hkey]
      have en : ((-c2 : ℚ) : ℝ) / Real.sqrt (r2 : ℝ) = -(((c2 : ℚ) : ℝ) / Real.sqrt (r2 : ℝ)) := by
        push_cast
        ring
      have en2 : ((-c : ℚ) : ℝ) / Real.sqrt (r : ℝ) = -(((c : ℚ) : ℝ) / Real.sqrt (r : ℝ)) := by
        push_cast
        ring
      rw [en, en2, rord3_neg]
    · simp only [if_pos hc, if_neg hc2]
      have hcr : ((c : ℚ) : ℝ) / Real.sqrt (r : ℝ) < 0 :=
        div_neg_of_neg_of_pos (by exact_mod_cast hc) hsr
      have hc2r : (0 : ℝ) ≤ ((c2 : ℚ) : ℝ) / Real.sqrt (r2 : ℝ) :=
        div_nonneg (by exact_mod_cast not_lt.mp hc2) hsr2.le
      rw [rord3_lt (lt_of_lt_of_le hcr hc2r)]
  · by_cases hc2 : c2 < 0
    · simp only [if_neg hc, if_pos hc2]
      have hcr : (0 : ℝ) ≤ ((c : ℚ) : ℝ) / Real.sqrt (r : ℝ) :=
        div_nonneg (by exact_mod_cast not_lt.mp hc) hsr.le
      have hc2r : ((c2 : ℚ) : ℝ) / Real.sqrt (r2 : ℝ) < 0 :=
        div_neg_of_neg_of_pos (by exact_mod_cast hc2) hsr2
      rw [rord3_gt (lt_of_le_of_lt' hcr hc2r)]
    · simp only [if_neg hc, if_neg hc2]
      exact ord3_div_sqrt c c2 r r2 hr hr2 (not_lt.mp hc) (not_lt.mp hc2)

theorem erord3_lt {x y : EReal} (h : x < y) : erord3 x y = Ordering.lt := by
  simp [erord3, h]

theorem erord3_eq {x y : EReal} (h : x = y) : erord3 x y = Ordering.eq := by
  simp [erord3, h]

theorem erord3_gt {x y : EReal} (h : y < x) : erord3 x y = Ordering.gt := by
  have h1 : ¬ x < y := not_lt.mpr h.le
  have h2 : x ≠ y := ne_of_gt h
  simp [erord3, h1, h2]

theorem erord3_coe (x y : ℝ) : erord3 (x : EReal) (y : EReal) = rord3 x y := by
  rcases lt_trichotomy x y with h | h | h
  · rw [rord3_lt h, erord3_lt (by exact_mod_cast h)]
  · rw [rord3_eq h, erord3_eq (by exact_mod_cast h)]
  · rw [rord3_gt h, erord3_gt (by exact_mod_cast h)]

theorem ord3_rord3 (a b : ℚ) : Flt.ord3 a b = rord3 (a : ℝ) (b : ℝ) := by
  rcases lt_trichotomy a b with h | h | h
  · rw [ord3_lt h, rord3_lt (by exact_mod_cast h)]
  · rw [ord3_eq h, rord3_eq (by exact_mod_cast h)]
  · rw [ord3_gt h, rord3_gt (by exact_mod_cast h)]

/-- Soundness of the model's partial comparison: on well-formed operands,
`cmpF` returns exactly the ordering of the denoted extended reals. -/
theorem cmpF_char {x y : Flt} (hx : Flt.wf x = true) (hy : Flt.wf y = true) :
    Flt.cmpF x y = some (erord3 (fval x) (fval y)) := by
  rcases x with _ | _ | _ | a | ⟨c, r⟩
  · simp [Flt.wf] at hx
  · rcases y with _ | _ | _ | b | ⟨c2, r2⟩
    · simp [Flt.wf] at hy
    · simp only [Flt.cmpF, fval]
      rw [erord3_eq rfl]
    · simp only [Flt.cmpF, fval]
      rw [erord3_gt bot_lt_top]
    · simp only [Flt.cmpF, fval]
      rw [erord3_gt (EReal.coe_lt_top _)]
    · simp only [Flt.cmpF, fval]
      rw [erord3_gt (EReal.coe_lt_top _)]
  · rcases y with _ | _ | _ | b | ⟨c2, r2⟩
    · simp [Flt.wf] at hy
    · simp only [Flt.cmpF, fval]
      rw [erord3_lt bot_lt_top]
    · simp only [Flt.cmpF, fval]
      rw [erord3_eq rfl]
    · simp only [Flt.cmpF, fval]
      rw [erord3_lt (EReal.bot_lt_coe _)]
    · simp only [Flt.cmpF, fval]
      rw [erord3_lt (EReal.bot_lt_coe _)]
  · rcases y with _ | _ | _ | b | ⟨c2, r2⟩
    · simp [Flt.wf] at hy
    · simp only [Flt.cmpF, fval]
      rw [erord3_lt (EReal.coe_lt_top _)]
    · simp only [Flt.cmpF, fval]
      rw [erord3_gt (EReal.bot_lt_coe _)]
    · simp only [Flt.cmpF, fval]
      rw [erord3_coe, ord3_rord3]
    · simp only [Flt.cmpF, fval]
      rw [erord3_coe]
      have hchar := cmpSS_char a 1 c2 r2 one_pos (by simpa [Flt.wf] using hy)
      simp only [Rat.cast_one, Real.sqrt_one, div_one] at hchar
      rw [hchar]
  · rcases y with _ | _ | _ | b | ⟨c2, r2⟩
    · simp [Flt.wf] at hy
    · simp only [Flt.cmpF, fval]
      rw [erord3_lt (EReal.coe_lt_top _)]
    · simp only [Flt.cmpF, fval]
      rw [erord3_gt (EReal.bot_lt_coe _)]
    · simp only [Flt.cmpF, fval]
      rw [erord3_coe]
      have hchar := cmpSS_char c r b 1 (by simpa [Flt.wf] using hx) one_pos
      simp only [Rat.cast_one, Real.sqrt_one, div_one] at hchar
      rw [hchar]
    · simp only [Flt.cmpF, fval]
      rw [erord3_coe]
      rw [cmpSS_char c r c2 r2 (by simpa [Flt.wf] using hx) (by simpa [Flt.wf] using hy)]

theorem erord3_lt_iff {a b : EReal} : erord3 a b = Ordering.lt ↔ a < b := by
  unfold erord3
  split_ifs with h1 h2
  · simp [h1]
  · simp [h1]
  · simp [h1]

theorem erord3_eq_iff {a b : EReal} : erord3 a b = Ordering.eq ↔ a = b := by
  unfold erord3
  split_ifs with h1 h2
  · simp [h1.ne]
  · simp [h2]
  · simp [h2]

theorem erord3_ne_gt_iff {a b : EReal} : erord3 a b ≠ Ordering.gt ↔ a ≤ b := by
  unfold erord3
  split_ifs with h1 h2
  · simp [h1.le]
  · simp [le_of_eq h2]
  · have hba : b < a := lt_of_le_of_ne (not_lt.mp h1) (fun he => h2 he.symm)
    simp [not_le.mpr hba]

theorem cmpF_lt_iff {x y : Flt} (hx : Flt.wf x = true) (hy : Flt.wf y = true) :
    Flt.cmpF x y = some Ordering.lt ↔ fval x < fval y := by
  rw [cmpF_char hx hy]
  simp [erord3_lt_iff]

theorem cmpF_eq_iff {x y : Flt} (hx : Flt.wf x = true) (hy : Flt.wf y = true) :
    Flt.cmpF x y = some Ordering.eq ↔ fval x = fval y := by
  rw [cmpF_char hx hy]
  simp [erord3_eq_iff]

theorem cmpF_ne_gt_iff {x y : Flt} (hx : Flt.wf x = true) (hy : Flt.wf y = true) :
    Flt.cmpF x y ≠ some Ordering.gt ↔ fval x ≤ fval y := by
  rw [cmpF_char hx hy]
  simp [erord3_ne_gt_iff]

theorem cmpF_self {x : Flt} (hx : Flt.wf x = true) :
    Flt.cmpF x x = some Ordering.eq := by
  rw [cmpF_char hx hx, erord3_eq rfl]

theorem erord3_gt_iff {a b : EReal} : erord3 a b = Ordering.gt ↔ b < a := by
  unfold erord3
  split_ifs with h1 h2
  · simp [not_lt.mpr h1.le]
  · simp [not_lt.mpr (le_of_eq h2)]
  · simp [lt_of_le_of_ne (not_lt.mp h1) (fun he => h2 he.symm)]

theorem cmpF_gt_iff {x y : Flt} (hx : Flt.wf x = true) (hy : Flt.wf y = true) :
    Flt.cmpF x y = some Ordering.gt ↔ fval y < fval x := by
  rw [cmpF_char hx hy]
  simp [erord3_gt_iff]

theorem wf_not_nan {x : Flt} (hx : Flt.wf x = true) : x ≠ Flt.nan := by
  intro he
  rw [he] at hx
  exact absurd hx (by decide)

theorem cmpF_isSome_of_not_nan {x y : Flt} (hx : x ≠ Flt.nan) (hy : y ≠ Flt.nan) :
    ∃ o, Flt.cmpF x y = some o := by
  rcases x <;> rcases y <;>
    first
    | exact absurd rfl hx
    | exact absurd rfl hy
    | exact ⟨_, rfl⟩

theorem ord3_eq_iff {x y : ℚ} : Flt.ord3 x y = Ordering.eq ↔ x = y := by
  unfold Flt.ord3
  split_ifs with h1 h2
  · simp [h1.ne]
  · simp [h2]
  · simp [h2]

theorem eqB_self_iff {x : Flt} : Flt.eqB x x = true ↔ x ≠ Flt.nan := by
  constructor
  · intro h he
    rw [he] at h
    exact absurd h (by decide)
  · intro h
    rcases x with _ | _ | _ | a | ⟨c, r⟩
    · exact absurd rfl h
    · rfl
    · rfl
    · simp only [Flt.eqB, Flt.cmpF, ord3_eq rfl]
      rfl
    · simp only [Flt.eqB, Flt.cmpF, Flt.cmpSS]
      split_ifs <;> simp [ord3_eq rfl]

theorem cmpSS_eq_symm {c r c2 r2 : ℚ} (h : Flt.cmpSS c r c2 r2 = Ordering.eq) :
    Flt.cmpSS c2 r2 c r = Ordering.eq := by
  unfold Flt.cmpSS at h ⊢
  split_ifs at h ⊢ <;> simp_all [ord3_eq_iff]

theorem eqB_true_symm {x y : Flt} (h : Flt.eqB x y = true) : Flt.eqB y x = true := by
  rcases x with _ | _ | _ | a | ⟨c, r⟩ <;> rcases y with _ | _ | _ | b | ⟨c2, r2⟩ <;>
    simp only [Flt.eqB, Flt.cmpF, decide_eq_true_eq, Option.some.injEq] at h ⊢ <;>
    try exact h
  all_goals try simp at h
  · exact ord3_eq (ord3_eq_iff.mp h).symm
  · exact cmpSS_eq_symm h
  · exact cmpSS_eq_symm h
  · exact cmpSS_eq_symm h

theorem eqB_atomic_eq {x y : Flt} (hx : Flt.atomic x = true)
    (hy : Flt.atomic y = true) (h : Flt.eqB x y = true) : x = y := by
  rcases x with _ | _ | _ | a | ⟨c, r⟩ <;> rcases y with _ | _ | _ | b | ⟨c2, r2⟩ <;>
    simp_all [Flt.atomic, Flt.eqB, Flt.cmpF, ord3_eq_iff]

/-! Correctness of the `min_by` fold against the first-minimum
specification. -/

theorem find?_cons_pos {α : Type} (p : α → Bool) (a : α) (l : List α)
    (h : p a = true) : (a :: l).find? p = some a := by
  simp [List.find?, h]

theorem find?_cons_neg {α : Type} (p : α → Bool) (a : α) (l : List α)
    (h : p a = false) : (a :: l).find? p = l.find? p := by
  simp [List.find?, h]

theorem find?_congr_mem {α : Type} {p q : α → Bool} :
    ∀ {l : List α}, (∀ a ∈ l, p a = q a) → l.find? p = l.find? q := by
  intro l
  induction l with
  | nil => intro _; rfl
  | cons a as ih =>
    intro h
    have ha : p a = q a := h a (List.mem_cons_self a as)
    by_cases hpa : p a = true
    · rw [List.find?_cons_of_pos _ hpa, List.find?_cons_of_pos _ (ha ▸ hpa)]
    · have hpa2 : p a = false := Bool.eq_false_iff.mpr hpa
      have hqa2 : q a = false := ha ▸ hpa2
      rw [List.find?_cons_of_neg _ (by simp [hpa2]), List.find?_cons_of_neg _ (by simp [hqa2])]
      exact ih (fun b hb => h b (List.mem_cons_of_mem a hb))

theorem wle_iff {α : Type} (fz : α → Flt) {e e2 : α}
    (h1 : Flt.wf (fz e) = true) (h2 : Flt.wf (fz e2) = true) :
    ((!(decide (Flt.cmpF (fz e) (fz e2) = some Ordering.gt))) = true) ↔
      fval (fz e) ≤ fval (fz e2) := by
  rw [Bool.not_eq_eq_eq_not]
  simp only [Bool.not_true, decide_eq_false_iff_not]
  exact cmpF_ne_gt_iff h1 h2

theorem allP_iff {α : Type} (fz : α → Flt) (l : List α) (e : α)
    (hwl : ∀ a ∈ l, Flt.wf (fz a) = true) (he : Flt.wf (fz e) = true) :
    (l.all (fun e2 => !(decide (Flt.cmpF (fz e) (fz e2) = some Ordering.gt))) = true) ↔
      ∀ e2 ∈ l, fval (fz e) ≤ fval (fz e2) := by
  rw [List.all_eq_true]
  constructor
  · intro h a ha
    exact (wle_iff fz he (hwl a ha)).mp (h a ha)
  · intro h a ha
    exact (wle_iff fz he (hwl a ha)).mpr (h a ha)

theorem minByFuzz_spec {α : Type} (fz : α → Flt) :
    ∀ (xs : List α) (x : α), (∀ a ∈ x :: xs, Flt.wf (fz a) = true) →
      minByFuzz fz x xs = specMinBy fz (x :: xs) := by
  intro xs
  induction xs with
  | nil =>
    intro x h
    have hx := h x (List.mem_cons_self x [])
    unfold minByFuzz specMinBy
    simp [List.find?, List.all, cmpF_self hx]
  | cons y ys ih =>
    intro x h
    have hx : Flt.wf (fz x) = true := h x (by simp)
    have hy : Flt.wf (fz y) = true := h y (by simp)
    have hwys : ∀ a ∈ ys, Flt.wf (fz a) = true := fun a ha => h a (by simp [ha])
    have hchar : Flt.cmpF (fz x) (fz y) = some (erord3 (fval (fz x)) (fval (fz y))) :=
      cmpF_char hx hy
    have hstep : minByFuzz fz x (y :: ys) =
        match Flt.cmpF (fz x) (fz y) with
        | none => none
        | some Ordering.gt => minByFuzz fz y ys
        | some _ => minByFuzz fz x ys := rfl
    by_cases hgt : erord3 (fval (fz x)) (fval (fz y)) = Ordering.gt
    · -- the new head is strictly above `y`: the fold continues from `y`
      have hyx : fval (fz y) < fval (fz x) := erord3_gt_iff.mp hgt
      have hL : minByFuzz fz x (y :: ys) = minByFuzz fz y ys := by
        rw [hstep, hchar, hgt]
      rw [hL, ih y (fun a ha => h a (List.mem_cons_of_mem x ha))]
      -- it remains to drop `x` from the specification list
      unfold specMinBy
      have hPx : ((x :: y :: ys).all
          (fun e2 => !(decide (Flt.cmpF (fz x) (fz e2) = some Ordering.gt))) = false) := by
        rw [Bool.eq_false_iff]
        intro hall
        have := (allP_iff fz (x :: y :: ys) x (fun a ha => h a ha) hx).mp hall y (by simp)
        exact absurd this (not_le.mpr hyx)
      conv_rhs => rw [find?_cons_neg (fun e => (x :: y :: ys).all (fun e2 => !(decide (Flt.cmpF (fz e) (fz e2) = some Ordering.gt)))) x (y :: ys) hPx]
      apply find?_congr_mem
      intro e he
      have hwe : Flt.wf (fz e) = true := h e (List.mem_cons_of_mem x he)
      conv_rhs => rw [List.all_cons]
      by_cases hsub : ((y :: ys).all
          (fun e2 => !(decide (Flt.cmpF (fz e) (fz e2) = some Ordering.gt))) = true)
      · have hey : fval (fz e) ≤ fval (fz y) :=
          (allP_iff fz (y :: ys) e (fun a ha => h a (List.mem_cons_of_mem x ha)) hwe).mp
            hsub y (by simp)
        have hex : fval (fz e) ≤ fval (fz x) := le_of_lt (lt_of_le_of_lt hey hyx)
        rw [hsub, (wle_iff fz hwe hx).mpr hex]
        rfl
      · rw [Bool.eq_false_iff.mpr hsub]
        simp
    · -- the head is minimal so far: the fold keeps `x`
      have hxy : fval (fz x) ≤ fval (fz y) := by
        rcases ho : erord3 (fval (fz x)) (fval (fz y)) with _ | _ | _
        · exact le_of_lt (erord3_lt_iff.mp ho)
        · exact le_of_eq (erord3_eq_iff.mp ho)
        · exact absurd ho hgt
      have hL : minByFuzz fz x (y :: ys) = minByFuzz fz x ys := by
        rw [hstep, hchar]
        rcases ho : erord3 (fval (fz x)) (fval (fz y)) with _ | _ | _
        · rfl
        · rfl
        · exact absurd ho hgt
      rw [hL, ih x (fun a ha => by
        rcases List.mem_cons.mp ha with hh | hh
        · exact hh ▸ hx
        · exact hwys a hh)]
      unfold specMinBy
      have hwxy : (!(decide (Flt.cmpF (fz x) (fz y) = some Ordering.gt))) = true :=
        (wle_iff fz hx hy).mpr hxy
      by_cases hPx : ((x :: ys).all
          (fun e2 => !(decide (Flt.cmpF (fz x) (fz e2) = some Ordering.gt))) = true)
      · -- the head satisfies the full specification predicate on both lists
        have hPxfull : ((x :: y :: ys).all
            (fun e2 => !(decide (Flt.cmpF (fz x) (fz e2) = some Ordering.gt))) = true) := by
          simp only [List.all_cons, Bool.and_eq_true] at hPx ⊢
          exact ⟨hPx.1, hwxy, hPx.2⟩
        conv_lhs => rw [find?_cons_pos (fun e => (x :: ys).all (fun e2 => !(decide (Flt.cmpF (fz e) (fz e2) = some Ordering.gt)))) x ys hPx]
        conv_rhs => rw [find?_cons_pos (fun e => (x :: y :: ys).all (fun e2 => !(decide (Flt.cmpF (fz e) (fz e2) = some Ordering.gt)))) x (y :: ys) hPxfull]
      · have hPxfull : ((x :: y :: ys).all
            (fun e2 => !(decide (Flt.cmpF (fz x) (fz e2) = some Ordering.gt))) = false) := by
          rw [Bool.eq_false_iff]
          intro hall
          apply absurd _ hPx
          simp only [List.all_cons, Bool.and_eq_true] at hall ⊢
          exact ⟨hall.1, hall.2.2⟩
        have hPy : ((x :: y :: ys).all
            (fun e2 => !(decide (Flt.cmpF (fz y) (fz e2) = some Ordering.gt))) = false) := by
          rw [Bool.eq_false_iff]
          intro hall
          have hyall := (allP_iff fz (x :: y :: ys) y (fun a ha => h a ha) hy).mp hall
          apply absurd _ (Bool.eq_false_iff.mp hPxfull)
          refine (allP_iff fz (x :: y :: ys) x (fun a ha => h a ha) hx).mpr ?_
          intro e2 he2
          exact le_trans hxy (hyall e2 he2)
        conv_lhs => rw [find?_cons_neg (fun e => (x :: ys).all (fun e2 => !(decide (Flt.cmpF (fz e) (fz e2) = some Ordering.gt)))) x ys (Bool.eq_false_iff.mpr hPx)]
        conv_rhs => rw [find?_cons_neg (fun e => (x :: y :: ys).all (fun e2 => !(decide (Flt.cmpF (fz e) (fz e2) = some Ordering.gt)))) x (y :: ys) hPxfull,
          find?_cons_neg (fun e => (x :: y :: ys).all (fun e2 => !(decide (Flt.cmpF (fz e) (fz e2) = some Ordering.gt)))) y ys hPy]
        apply find?_congr_mem
        intro e he
        have hwe : Flt.wf (fz e) = true := hwys e he
        conv_lhs => rw [List.all_cons]
        conv_rhs => rw [List.all_cons, List.all_cons]
        by_cases hex : (!(decide (Flt.cmpF (fz e) (fz x) = some Ordering.gt))) = true
        · have hexv : fval (fz e) ≤ fval (fz x) := (wle_iff fz hwe hx).mp hex
          have hey : (!(decide (Flt.cmpF (fz e) (fz y) = some Ordering.gt))) = true :=
            (wle_iff fz hwe hy).mpr (le_trans hexv hxy)
          rw [hex, hey]
          simp
        · rw [Bool.eq_false_iff.mpr hex]
          simp

theorem minByFuzz_isSome {α : Type} (fz : α → Flt) :
    ∀ (xs : List α) (x : α), (∀ a ∈ x :: xs, Flt.wf (fz a) = true) →
      ∃ e, minByFuzz fz x xs = some e := by
  intro xs
  induction xs with
  | nil => intro x _; exact ⟨x, rfl⟩
  | cons y ys ih =>
    intro x h
    have hx : Flt.wf (fz x) = true := h x (by simp)
    have hy : Flt.wf (fz y) = true := h y (by simp)
    have hstep : minByFuzz fz x (y :: ys) =
        match Flt.cmpF (fz x) (fz y) with
        | none => none
        | some Ordering.gt => minByFuzz fz y ys
        | some _ => minByFuzz fz x ys := rfl
    rw [hstep, cmpF_char hx hy]
    rcases erord3 (fval (fz x)) (fval (fz y)) with _ | _ | _
    · exact ih x (fun a ha => by
        rcases List.mem_cons.mp ha with hh | hh
        · exact hh ▸ hx
        · exact h a (by simp [hh]))
    · exact ih x (fun a ha => by
        rcases List.mem_cons.mp ha with hh | hh
        · exact hh ▸ hx
        · exact h a (by simp [hh]))
    · exact ih y (fun a ha => h a (List.mem_cons_of_mem x ha))

/-- Under well-formed fuzziness values, `min_by` does not panic and
returns exactly the first-minimum specification. -/
theorem rustMinBy_spec {α : Type} (fz : α → Flt) (l : List α)
    (h : ∀ a ∈ l, Flt.wf (fz a) = true) :
    rustMinBy fz l = some (specMinBy fz l) := by
  rcases l with _ | ⟨x, xs⟩
  · rfl
  · have hs := minByFuzz_spec fz xs x h
    obtain ⟨e, he⟩ := minByFuzz_isSome fz xs x h
    show (minByFuzz fz x xs).map some = some (specMinBy fz (x :: xs))
    rw [he, hs.symm.trans he]
    rfl

/-- C2: `FifoCache::find` returns the value of the minimum-fuzziness
entry among those matching the query within their own stored tolerance,
with ties resolved toward the older (earlier) entry; it returns `none`
when no entry matches; it does not panic; and it does not mutate the
cache. The hypothesis — every matching entry has a well-formed (non-nan)
fuzziness to the query — is what the provided `ApproxComparable`
instances guarantee (see C5 for the vector instance). -/
theorem C2_fifo_find_spec {K V : Type} (acmp : ApproxCmp K) (s : FifoCache K V)
    (q : K)
    (hwf : ∀ e ∈ s.items, acmp.rmatches e.key q e.tol = true →
      Flt.wf (acmp.fuzz q e.key) = true) :
    fifoFind acmp s q = (some (specFifoFind acmp s q), s) := by
  have hw : ∀ e ∈ s.items.filter (fun e => acmp.rmatches e.key q e.tol),
      Flt.wf (acmp.fuzz q e.key) = true := by
    intro e he
    have hme := List.mem_filter.mp he
    exact hwf e hme.1 hme.2
  unfold fifoFind specFifoFind
  rw [rustMinBy_spec _ _ hw]
  rcases hsm : specMinBy (fun e => acmp.fuzz q e.key)
      (s.items.filter (fun e => acmp.rmatches e.key q e.tol)) with _ | e
  · rw [hsm]
    rfl
  · rw [hsm]
    rfl

/-- Closed witness for C2 at a concrete two-entry cache. -/
theorem C2_fifo_find_spec_witness :
    fifoFind f32Cmp
        ⟨2, [⟨Flt.fin 5, Flt.fin 1, (10 : ℤ)⟩, ⟨Flt.fin 6, Flt.fin 2, 20⟩]⟩
        (Flt.fin 6) =
      (some (specFifoFind f32Cmp
        ⟨2, [⟨Flt.fin 5, Flt.fin 1, (10 : ℤ)⟩, ⟨Flt.fin 6, Flt.fin 2, 20⟩]⟩
        (Flt.fin 6)),
       ⟨2, [⟨Flt.fin 5, Flt.fin 1, (10 : ℤ)⟩, ⟨Flt.fin 6, Flt.fin 2, 20⟩]⟩) :=
  C2_fifo_find_spec f32Cmp _ _ (by
    norm_num [f32Cmp, defaultMatches, f32Fuzz, Flt.ltB, Flt.wf, Flt.cmpF, Flt.cmpSS,
      Flt.ord3, Flt.subF, Flt.absF])

/-- C3, failing input: the LRU capacity bound is violated by the code.
With capacity 2, the insert sequence
`(1,1,τ), (1,2,τ), (2,3,τ), (3,4,τ), (4,5,τ)` (with `τ = 1.0`, scalar
keys) leaves `len() = 3 > 2`: reinserting key `1` while below capacity
replaces the map entry but leaves the old node in the recency list; the
first eviction pops the stale old node and `map.remove` deletes the map
entry of the *new* node, so the second eviction pops a node whose key is
no longer in the map, removes nothing, and the map grows past capacity. -/
theorem C3_lru_capacity_overflow :
    (lruNew ℕ ℕ 2).map (fun s0 =>
      lruLen (lruInsert (lruInsert (lruInsert (lruInsert
        (lruInsert s0 1 1 (Flt.fin 1)) 1 2 (Flt.fin 1)) 2 3 (Flt.fin 1))
        3 4 (Flt.fin 1)) 4 5 (Flt.fin 1))) = some 3 := by
  decide

/-- C6, counterexample: constructing the LSH dispatcher with bucket
capacity `C = 0` (and a valid dimension) does not panic — `LshCache::new`
asserts only the hasher's dimension; the claim says it panics. -/
theorem C6_lsh_new_zero_capacity_no_panic :
    (lshNew (FifoCache (List Flt) ℕ) (fun _ => 0) 8 8 0).isSome = true := by
  decide

/-- C6, amended: `FifoCache::new(0)` and `LRUCache::new(0)` panic, and
the SimHash projector's constructor (hence `LshCache::new`) panics when
the dimension is not a multiple of the lane width 8; but `LshCache::new`
with bucket capacity 0 succeeds, and the capacity assertion instead
fires at the first insert, when the inner cache for a fresh signature is
constructed with capacity 0. -/
theorem C6_construction_failures :
    (∀ K V : Type, fifoNew K V 0 = none) ∧
    (∀ K V : Type, lruNew K V 0 = none) ∧
    (∀ numHash dim : ℕ, dim % 8 ≠ 0 → ∀ stream, simHashWithRng stream numHash dim = none) ∧
    (∀ (C : Type) stream numHash dim cap, dim % 8 ≠ 0 →
      lshNew C stream numHash dim cap = none) ∧
    (∀ (V : Type) (acmp : ApproxCmp (List Flt)) (h : SimHashHasher)
        (k : List Flt) (v : V) (tol : Flt),
      lshInsert (fifoOps acmp) (fun x => x) ⟨h, [], 0⟩ k v tol = none) := by
  refine ⟨fun K V => rfl, fun K V => rfl, fun numHash dim hd stream => ?_,
    fun C stream numHash dim cap hd => ?_, fun V acmp h k v tol => rfl⟩
  · simp [simHashWithRng, hd]
  · simp [lshNew, simHashWithRng, hd]

/-- Closed witness for C6: the asserting constructors at concrete inputs. -/
theorem C6_construction_failures_witness :
    fifoNew ℕ ℕ 0 = none ∧ lruNew ℕ ℕ 0 = none ∧
      simHashWithRng (fun _ => 0) 8 9 = none ∧
      lshNew (FifoCache (List Flt) ℕ) (fun _ => 0) 8 9 2 = none :=
  ⟨C6_construction_failures.1 ℕ ℕ, C6_construction_failures.2.1 ℕ ℕ,
   C6_construction_failures.2.2.1 8 9 (by decide) (fun _ => 0),
   C6_construction_failures.2.2.2.1 _ (fun _ => 0) 8 9 2 (by decide)⟩

/-- C9, counterexample: `F32Vector`'s `PartialEq` on a proper prefix is
not always `true` — a `nan` element in the common prefix compares
unequal to itself, so `from([nan]) == from([nan, 0.0])` is `false`,
refuting the claim as stated. -/
theorem C9_prefix_eq_counterexample :
    f32vecEqRust [Flt.nan] [Flt.nan, Flt.fin 0] = false := by
  decide

theorem zip_take_self {α : Type} :
    ∀ (b : List α) (n : ℕ), (b.take n).zip b = (b.take n).zip (b.take n) := by
  intro b
  induction b with
  | nil => intro n; simp
  | cons x xs ih =>
    intro n
    rcases n with _ | m
    · rfl
    · simp only [List.take_succ_cons, List.zip_cons_cons, ih m]

theorem mem_zip_self {α : Type} :
    ∀ (a : List α) (p : α × α), p ∈ a.zip a → p.1 = p.2 ∧ p.1 ∈ a := by
  intro a
  induction a with
  | nil => intro p hp; simp at hp
  | cons x xs ih =>
    intro p hp
    rcases List.mem_cons.mp hp with hh | hh
    · rw [hh]
      exact ⟨rfl, by simp⟩
    · obtain ⟨he, hm⟩ := ih p hh
      exact ⟨he, List.mem_cons_of_mem x hm⟩

/-- C9, amended: for every slice `b` and proper prefix `a = take n b`
all of whose elements are self-equal under IEEE `==` (no `nan`),
`F32Vector::from(a) == F32Vector::from(b)` holds even though `a ≠ b`,
because `PartialEq` compares only the zipped element pairs, while the
`Hash` implementation feeds one `to_bits` word per element over all
elements, so the two hash input streams differ (already in length). -/
theorem C9_prefix_eq {b : List Flt} {n : ℕ} (hn : n < b.length)
    (hself : ∀ x ∈ b.take n, Flt.eqB x x = true) :
    f32vecEqRust (b.take n) b = true ∧ b.take n ≠ b ∧
      (hashFeed (b.take n)).length ≠ (hashFeed b).length := by
  have hlen : (b.take n).length = n := List.length_take_of_le (le_of_lt hn)
  refine ⟨?_, ?_, ?_⟩
  · unfold f32vecEqRust
    rw [List.all_eq_true]
    intro p hp
    rw [zip_take_self b n] at hp
    obtain ⟨he, hm⟩ := mem_zip_self _ p hp
    rw [← he]
    exact hself p.1 hm
  · intro he
    have := congrArg List.length he
    rw [hlen] at this
    exact absurd this (ne_of_lt hn)
  · unfold hashFeed
    rw [List.length_map, List.length_map, hlen]
    exact ne_of_lt hn

/-- Closed witness for C9 at `b = [1.0, 2.0]`, `n = 1`. -/
theorem C9_prefix_eq_witness :
    f32vecEqRust ([Flt.fin 1, Flt.fin 2].take 1) [Flt.fin 1, Flt.fin 2] = true ∧
      [Flt.fin 1, Flt.fin 2].take 1 ≠ [Flt.fin 1, Flt.fin 2] ∧
      (hashFeed ([Flt.fin 1, Flt.fin 2].take 1)).length ≠
        (hashFeed [Flt.fin 1, Flt.fin 2]).length :=
  C9_prefix_eq (by decide) (by decide)

theorem bucketSet_keys {C : Type} :
    ∀ (bs : List (List Bool × C)) (sig : List Bool) (c : C),
      (bucketSet bs sig c).map Prod.fst = bs.map Prod.fst := by
  intro bs sig c
  induction bs with
  | nil => rfl
  | cons p ps ih =>
    unfold bucketSet
    by_cases hp : p.1 = sig
    · simp [hp]
    · simp [hp, ih]

/-- C10: an LSH `find` whose signature has no bucket returns `none` and
leaves the cache (in particular the bucket map) unchanged; `find` never
changes the set of bucket signatures; and `insert` extends the bucket
map with the key's signature exactly when that signature is new,
otherwise it keeps the signatures unchanged — buckets are created only
by `insert`, on first use of a signature. -/
theorem C10_lsh_miss_frame {K V C : Type} (ops : InnerOps K V C)
    (asRef : K → List Flt) (st : LshCache C) :
    (∀ q : K, bucketGet st.buckets (lshSignature st.hasher (asRef q)) = none →
      lshFind ops asRef st q = some (none, st)) ∧
    (∀ (q : K) r st2, lshFind ops asRef st q = some (r, st2) →
      st2.buckets.map Prod.fst = st.buckets.map Prod.fst) ∧
    (∀ (k : K) (v : V) tol st2,
      bucketGet st.buckets (lshSignature st.hasher (asRef k)) = none →
      lshInsert ops asRef st k v tol = some st2 →
      st2.buckets.map Prod.fst =
        st.buckets.map Prod.fst ++ [lshSignature st.hasher (asRef k)]) ∧
    (∀ (k : K) (v : V) tol st2 b,
      bucketGet st.buckets (lshSignature st.hasher (asRef k)) = some b →
      lshInsert ops asRef st k v tol = some st2 →
      st2.buckets.map Prod.fst = st.buckets.map Prod.fst) := by
  refine ⟨?_, ?_, ?_, ?_⟩
  · intro q hq
    unfold lshFind
    rw [hq]
  · intro q r st2 hf
    unfold lshFind at hf
    rcases hg : bucketGet st.buckets (lshSignature st.hasher (asRef q)) with _ | b
    · simp only [hg] at hf
      cases hf
      rfl
    · simp only [hg] at hf
      rcases hc : ops.cfind b q with _ | rb
      · simp only [hc] at hf
        cases hf
      · simp only [hc] at hf
        cases hf
        exact bucketSet_keys _ _ _
  · intro k v tol st2 hg hi
    unfold lshInsert at hi
    simp only [hg] at hi
    rcases hfc : ops.fromCapacity st.bucketCapacity with _ | b0
    · simp only [hfc] at hi
      cases hi
    · simp only [hfc, Option.map_some] at hi
      cases hi
      simp
  · intro k v tol st2 b hg hi
    unfold lshInsert at hi
    simp only [hg] at hi
    cases hi
    exact bucketSet_keys _ _ _

/-! Facts about the `F32Vector` instance: the squared distance of
vectors of atomic `f32` data is `nan`, `+inf` or a non-negative finite
value; an entry that passes the tolerance filter has a finite squared
distance, hence a well-formed (non-`nan`) fuzziness. -/

theorem sqterm_good {x y : Flt} (hx : Flt.atomic x = true) (hy : Flt.atomic y = true) :
    Flt.mulF (Flt.subF x y) (Flt.subF x y) = Flt.nan ∨
    Flt.mulF (Flt.subF x y) (Flt.subF x y) = Flt.pinf ∨
    ∃ q, 0 ≤ q ∧ Flt.mulF (Flt.subF x y) (Flt.subF x y) = Flt.fin q := by
  rcases x <;> rcases y <;>
    first
    | exact Bool.noConfusion hx
    | exact Bool.noConfusion hy
    | exact Or.inl rfl
    | exact Or.inr (Or.inl rfl)
    | exact Or.inr (Or.inr ⟨_, mul_self_nonneg _, rfl⟩)

theorem addF_good {x y : Flt}
    (hx : x = Flt.nan ∨ x = Flt.pinf ∨ ∃ q, 0 ≤ q ∧ x = Flt.fin q)
    (hy : y = Flt.nan ∨ y = Flt.pinf ∨ ∃ q, 0 ≤ q ∧ y = Flt.fin q) :
    Flt.addF x y = Flt.nan ∨ Flt.addF x y = Flt.pinf ∨
      ∃ q, 0 ≤ q ∧ Flt.addF x y = Flt.fin q := by
  rcases hx with h | h | ⟨q1, hq1, h⟩ <;> subst h <;>
    rcases hy with h | h | ⟨q2, hq2, h⟩ <;> subst h <;>
    first
    | exact Or.inl rfl
    | exact Or.inr (Or.inl rfl)
    | exact Or.inr (Or.inr ⟨q1 + q2, add_nonneg hq1 hq2, rfl⟩)

theorem foldl_addF_good :
    ∀ (l : List Flt) (acc : Flt),
      (acc = Flt.nan ∨ acc = Flt.pinf ∨ ∃ q, 0 ≤ q ∧ acc = Flt.fin q) →
      (∀ x ∈ l, x = Flt.nan ∨ x = Flt.pinf ∨ ∃ q, 0 ≤ q ∧ x = Flt.fin q) →
      (l.foldl Flt.addF acc = Flt.nan ∨ l.foldl Flt.addF acc = Flt.pinf ∨
        ∃ q, 0 ≤ q ∧ l.foldl Flt.addF acc = Flt.fin q) := by
  intro l
  induction l with
  | nil => intro acc hacc _; exact hacc
  | cons x xs ih =>
    intro acc hacc hl
    exact ih (Flt.addF acc x) (addF_good hacc (hl x (by simp)))
      (fun y hy => hl y (List.mem_cons_of_mem x hy))

theorem l2DistSq_good (a b : List Flt)
    (ha : ∀ x ∈ a, Flt.atomic x = true) (hb : ∀ x ∈ b, Flt.atomic x = true) :
    l2DistSq a b = Flt.nan ∨ l2DistSq a b = Flt.pinf ∨
      ∃ q, 0 ≤ q ∧ l2DistSq a b = Flt.fin q := by
  unfold l2DistSq
  apply foldl_addF_good
  · exact Or.inr (Or.inr ⟨0, le_refl 0, rfl⟩)
  · intro t ht
    obtain ⟨p, hp, hpt⟩ := List.mem_map.mp ht
    have hpz := List.mem_of_mem_take hp
    have hmem := List.mem_zip hpz
    rw [← hpt]
    exact sqterm_good (ha p.1 hmem.1) (hb p.2 hmem.2)

theorem ltB_good_fin {d t2 : Flt}
    (hgood : d = Flt.nan ∨ d = Flt.pinf ∨ ∃ q, 0 ≤ q ∧ d = Flt.fin q)
    (hlt : Flt.ltB d t2 = true) : ∃ q, 0 ≤ q ∧ d = Flt.fin q := by
  rcases hgood with h | h | h
  · subst h
    simp [Flt.ltB, Flt.cmpF] at hlt
  · subst h
    rcases t2 <;> simp [Flt.ltB, Flt.cmpF] at hlt
  · exact h

theorem sqrtF_nonneg_wf {q : ℚ} (h : 0 ≤ q) :
    Flt.wf (Flt.sqrtF (Flt.fin q)) = true := by
  simp only [Flt.sqrtF]
  split_ifs with h1 h2
  · exact absurd h1 (not_lt.mpr h)
  · rfl
  · simp only [Flt.wf]
    exact decide_eq_true (lt_of_le_of_ne h (Ne.symm h2))

theorem sq_subF_comm_atomic {x y : Flt}
    (hx : Flt.atomic x = true) (hy : Flt.atomic y = true) :
    Flt.mulF (Flt.subF x y) (Flt.subF x y) = Flt.mulF (Flt.subF y x) (Flt.subF y x) := by
  rcases x <;> rcases y <;>
    first
    | exact Bool.noConfusion hx
    | exact Bool.noConfusion hy
    | rfl
    | exact congrArg Flt.fin (by ring)

theorem l2DistSq_comm (a b : List Flt)
    (ha : ∀ x ∈ a, Flt.atomic x = true) (hb : ∀ x ∈ b, Flt.atomic x = true) :
    l2DistSq a b = l2DistSq b a := by
  unfold l2DistSq
  have hk : kernelLen a b = kernelLen b a := by
    unfold kernelLen
    rw [Nat.min_comm]
  rw [hk]
  congr 1
  have hzip : ∀ (u v : List Flt), (∀ x ∈ u, Flt.atomic x = true) →
      (∀ x ∈ v, Flt.atomic x = true) →
      (u.zip v).map (fun p => Flt.mulF (Flt.subF p.1 p.2) (Flt.subF p.1 p.2)) =
      (v.zip u).map (fun p => Flt.mulF (Flt.subF p.1 p.2) (Flt.subF p.1 p.2)) := by
    intro u
    induction u with
    | nil => intro v _ _; cases v <;> rfl
    | cons x xs ih =>
      intro v hu hv
      cases v with
      | nil => rfl
      | cons y ys =>
        simp only [List.zip_cons_cons, List.map_cons]
        rw [sq_subF_comm_atomic (hu x (by simp)) (hv y (by simp)),
          ih ys (fun z hz => hu z (List.mem_cons_of_mem x hz))
            (fun z hz => hv z (List.mem_cons_of_mem y hz))]
  rw [List.map_take, List.map_take, hzip a b ha hb]

/-- An entry whose key passes the vector tolerance filter against the
query has a finite non-negative squared distance to it. -/
theorem vecMatched_wf {k q : List Flt} {tol : Flt}
    (hk : ∀ x ∈ k, Flt.atomic x = true) (hq : ∀ x ∈ q, Flt.atomic x = true)
    (hm : vecMatches k q tol = true) :
    ∃ d, 0 ≤ d ∧ l2DistSq q k = Flt.fin d := by
  obtain ⟨d, hd0, hd⟩ := ltB_good_fin (l2DistSq_good k q hk hq) hm
  exact ⟨d, hd0, by rw [l2DistSq_comm q k hq hk]; exact hd⟩

theorem vecFuzz_wf_of_matched {k q : List Flt} {tol : Flt}
    (hk : ∀ x ∈ k, Flt.atomic x = true) (hq : ∀ x ∈ q, Flt.atomic x = true)
    (hm : vecMatches k q tol = true) : Flt.wf (vecFuzz q k) = true := by
  obtain ⟨d, hd0, hd⟩ := vecMatched_wf hk hq hm
  unfold vecFuzz
  rw [hd]
  exact sqrtF_nonneg_wf hd0

theorem ord3_lt_iff {x y : ℚ} : Flt.ord3 x y = Ordering.lt ↔ x < y := by
  unfold Flt.ord3
  split_ifs with h1 h2
  · simp [h1]
  · simp [h1]
  · simp [h1]

theorem bool_eq_of_iff {x y : Bool} (h : x = true ↔ y = true) : x = y := by
  rcases x <;> rcases y <;> simp_all

/-- C8: on vectors of atomic `f32` data with a finite squared distance
`d` and a positive tolerance, the square-root-free override
`l2_dist_squared < tolerance * tolerance` coincides with the trait's
default definition `fuzziness < tolerance` (the fuzziness being
`sqrt d`), and both hold exactly when `sqrt d < tolerance` over the
reals. Arithmetic is exact in this model; IEEE rounding of
`tolerance * tolerance` and of the square root is not modelled. -/
theorem C8_matches_equiv (a b : List Flt) (t d : ℚ)
    (ha : ∀ x ∈ a, Flt.atomic x = true) (hb : ∀ x ∈ b, Flt.atomic x = true)
    (ht : 0 < t) (hd : l2DistSq a b = Flt.fin d) :
    vecMatches a b (Flt.fin t) = defaultMatches vecFuzz a b (Flt.fin t) ∧
    (vecMatches a b (Flt.fin t) = true ↔ Real.sqrt (d : ℝ) < (t : ℝ)) := by
  have hd0 : 0 ≤ d := by
    rcases l2DistSq_good a b ha hb with h | h | ⟨q, hq0, h⟩
    · rw [hd] at h
      cases h
    · rw [hd] at h
      cases h
    · rw [hd] at h
      cases h
      exact hq0
  have htr : (0 : ℝ) < (t : ℝ) := by exact_mod_cast ht
  have hv : vecMatches a b (Flt.fin t) = true ↔ d < t * t := by
    unfold vecMatches
    rw [hd]
    simp only [Flt.mulF, Flt.ltB, Flt.cmpF, decide_eq_true_eq, Option.some.injEq]
    exact ord3_lt_iff
  have hsq : (Real.sqrt (d : ℝ) < (t : ℝ)) ↔ d < t * t := by
    rw [Real.sqrt_lt' htr]
    rw [sq]
    constructor
    · intro h
      exact_mod_cast h
    · intro h
      exact_mod_cast h
  refine ⟨?_, hv.trans hsq.symm⟩
  apply bool_eq_of_iff
  rcases eq_or_lt_of_le hd0 with hz | hpos
  · -- zero distance: both sides are `true`
    have hs0 : Flt.sqrtF (Flt.fin d) = Flt.fin 0 := by
      rw [← hz]
      simp [Flt.sqrtF]
    unfold defaultMatches vecFuzz
    rw [hd, hs0]
    simp only [Flt.ltB, Flt.cmpF, decide_eq_true_eq, Option.some.injEq]
    rw [hv]
    constructor
    · intro _
      exact ord3_lt ht
    · intro _
      rw [← hz]
      exact mul_pos ht ht
  · -- positive distance: compare `sqrt d = d / sqrt d` against `t`
    have hs : Flt.sqrtF (Flt.fin d) = Flt.scaled d d := by
      simp only [Flt.sqrtF, if_neg (not_lt.mpr hd0), if_neg hpos.ne.symm]
    have hwf : Flt.wf (Flt.scaled d d) = true := decide_eq_true hpos
    have hdm : defaultMatches vecFuzz a b (Flt.fin t) = true ↔ d < t * t := by
      unfold defaultMatches vecFuzz
      rw [hd, hs]
      simp only [Flt.ltB, decide_eq_true_eq]
      rw [cmpF_lt_iff hwf (show Flt.wf (Flt.fin t) = true from rfl)]
      show (((d : ℝ) / Real.sqrt (d : ℝ) : ℝ) : EReal) < (((t : ℚ) : ℝ) : EReal) ↔
        d < t * t
      rw [EReal.coe_lt_coe_iff, Real.div_sqrt, Real.sqrt_lt' htr, sq]
      constructor
      · intro h
        exact_mod_cast h
      · intro h
        exact_mod_cast h
    exact hv.trans hdm.symm

/-- Closed witness for C8 at `a = 8 ones`, `b = 8 zeros`, `t = 3`
(distance squared 8). -/
theorem C8_matches_equiv_witness :
    (vecMatches (List.replicate 8 (Flt.fin 1)) (List.replicate 8 (Flt.fin 0)) (Flt.fin 3) =
      defaultMatches vecFuzz (List.replicate 8 (Flt.fin 1)) (List.replicate 8 (Flt.fin 0))
        (Flt.fin 3)) ∧
    (vecMatches (List.replicate 8 (Flt.fin 1)) (List.replicate 8 (Flt.fin 0)) (Flt.fin 3) =
        true ↔
      Real.sqrt ((8 : ℚ) : ℝ) < ((3 : ℚ) : ℝ)) :=
  C8_matches_equiv _ _ 3 8 (by decide) (by decide) (by norm_num)
    (by norm_num [l2DistSq, kernelLen, List.replicate, Flt.subF, Flt.mulF, Flt.addF])

/-- C5: with `F32Vector` keys, `find` on the FIFO and LRU caches never
reaches the `unwrap` panic, for every state whose stored keys and every
query are vectors of atomic `f32` data — including `nan` and infinite
components: every candidate that passes the per-entry tolerance filter
has a finite non-negative squared distance, hence a non-`nan` fuzziness,
so all comparisons inside `min_by` are defined. Moreover a query whose
fuzziness to every stored key is `nan` matches nothing and returns
`none`. -/
theorem C5_find_no_panic {V : Type} (s : FifoCache (List Flt) V)
    (sl : LruState (List Flt) V) (q : List Flt)
    (hq : ∀ x ∈ q, Flt.atomic x = true)
    (hs : ∀ e ∈ s.items, ∀ x ∈ e.key, Flt.atomic x = true)
    (hsl : ∀ p ∈ sl.map, ∀ x ∈ p.1.key, Flt.atomic x = true) :
    (fifoFind vecCmp s q).1 ≠ none ∧
    lruFind vecCmp sl q ≠ none ∧
    ((∀ e ∈ s.items, vecCmp.fuzz q e.key = Flt.nan) →
      (fifoFind vecCmp s q).1 = some none) ∧
    ((∀ p ∈ sl.map, vecCmp.fuzz q p.1.key = Flt.nan) →
      (lruFind vecCmp sl q).map Prod.fst = some none) := by
  have hwfF : ∀ e ∈ s.items.filter (fun e => vecCmp.rmatches e.key q e.tol),
      Flt.wf (vecCmp.fuzz q e.key) = true := by
    intro e he
    have hme := List.mem_filter.mp he
    exact vecFuzz_wf_of_matched (hs e hme.1) hq hme.2
  have hwfL : ∀ p ∈ sl.map.filter (fun p => vecCmp.rmatches p.1.key q p.1.tol),
      Flt.wf (vecCmp.fuzz q p.1.key) = true := by
    intro p hp
    have hmp := List.mem_filter.mp hp
    exact vecFuzz_wf_of_matched (hsl p hmp.1) hq hmp.2
  refine ⟨?_, ?_, ?_, ?_⟩
  · unfold fifoFind
    rw [rustMinBy_spec _ _ hwfF]
    rcases hsm : specMinBy (fun e => vecCmp.fuzz q e.key)
        (s.items.filter (fun e => vecCmp.rmatches e.key q e.tol)) with _ | e <;>
      simp [hsm]
  · unfold lruFind
    rw [rustMinBy_spec _ _ hwfL]
    rcases hsm : specMinBy (fun p => vecCmp.fuzz q p.1.key)
        (sl.map.filter (fun p => vecCmp.rmatches p.1.key q p.1.tol)) with _ | cand
    · simp [hsm]
    · rcases hg : mapGet sl.map cand.1 with _ | node <;> simp [hsm, hg]
  · intro hall
    have hfil : s.items.filter (fun e => vecCmp.rmatches e.key q e.tol) = [] := by
      rw [List.filter_eq_nil_iff]
      intro e he hm
      obtain ⟨dd, hd0, hdq⟩ := vecMatched_wf (hs e he) hq hm
      have hfz : vecCmp.fuzz q e.key = Flt.sqrtF (Flt.fin dd) := by
        show vecFuzz q e.key = Flt.sqrtF (Flt.fin dd)
        unfold vecFuzz
        rw [hdq]
      have hnan := hall e he
      rw [hfz] at hnan
      exact absurd hnan (wf_not_nan (sqrtF_nonneg_wf hd0))
    unfold fifoFind
    rw [hfil]
    rfl
  · intro hall
    have hfil : sl.map.filter (fun p => vecCmp.rmatches p.1.key q p.1.tol) = [] := by
      rw [List.filter_eq_nil_iff]
      intro p hp hm
      obtain ⟨dd, hd0, hdq⟩ := vecMatched_wf (hsl p hp) hq hm
      have hfz : vecCmp.fuzz q p.1.key = Flt.sqrtF (Flt.fin dd) := by
        show vecFuzz q p.1.key = Flt.sqrtF (Flt.fin dd)
        unfold vecFuzz
        rw [hdq]
      have hnan := hall p hp
      rw [hfz] at hnan
      exact absurd hnan (wf_not_nan (sqrtF_nonneg_wf hd0))
    unfold lruFind
    rw [hfil]
    rfl

/-- Closed witness for C5: a one-entry FIFO cache and a one-entry LRU
cache holding an all-`nan` vector key, queried with an infinite vector. -/
theorem C5_find_no_panic_witness :
    ((fifoFind vecCmp
        ⟨1, [⟨List.replicate 8 Flt.nan, Flt.fin 1, (0 : ℕ)⟩]⟩
        (List.replicate 8 Flt.pinf)).1 ≠ none) ∧
    ((fifoFind vecCmp
        ⟨1, [⟨List.replicate 8 Flt.nan, Flt.fin 1, (0 : ℕ)⟩]⟩
        (List.replicate 8 Flt.pinf)).1 = some none) := by
  have h := C5_find_no_panic
    (⟨1, [⟨List.replicate 8 Flt.nan, Flt.fin 1, (0 : ℕ)⟩]⟩ : FifoCache (List Flt) ℕ)
    (⟨1, [], [], 0⟩ : LruState (List Flt) ℕ)
    (List.replicate 8 Flt.pinf) (by decide) (by decide) (by decide)
  refine ⟨h.1, h.2.2.1 ?_⟩
  intro e he
  have he2 : e = ⟨List.replicate 8 Flt.nan, Flt.fin 1, (0 : ℕ)⟩ := by
    simpa using he
  rw [he2]
  decide

theorem cmpF_gt_of_lt {x y : Flt} (hx : Flt.wf x = true) (hy : Flt.wf y = true)
    (h : Flt.cmpF x y = some Ordering.lt) : Flt.cmpF y x = some Ordering.gt := by
  rw [cmpF_lt_iff hx hy] at h
  rw [cmpF_gt_iff hy hx]
  exact h

theorem find?_eq_some_of_unique {α : Type} (p : α → Bool) :
    ∀ (l : List α) (e : α), e ∈ l → p e = true →
      (∀ e2 ∈ l, p e2 = true → e2 = e) → l.find? p = some e := by
  intro l
  induction l with
  | nil => intro e he; simp at he
  | cons a as ih =>
    intro e he hp huniq
    by_cases hpa : p a = true
    · rw [find?_cons_pos p a as hpa]
      rw [huniq a (List.mem_cons_self a as) hpa]
    · rw [find?_cons_neg p a as (Bool.eq_false_iff.mpr hpa)]
      have hea : e ≠ a := fun hcon => hpa (hcon ▸ hp)
      have he2 : e ∈ as := by
        rcases List.mem_cons.mp he with hh | hh
        · exact absurd hh hea
        · exact hh
      exact ih e he2 hp (fun e2 he2m hp2 => huniq e2 (List.mem_cons_of_mem a he2m) hp2)

theorem mapEntryEq_atomic {K : Type} [DecidableEq K] {a b : MapEntryM K}
    (ha : Flt.atomic a.tol = true) (hb : Flt.atomic b.tol = true)
    (h : mapEntryEq a b = true) : a = b := by
  unfold mapEntryEq at h
  rw [Bool.and_eq_true, decide_eq_true_eq] at h
  obtain ⟨hk, ht⟩ := h
  have ht2 := eqB_atomic_eq ha hb ht
  rcases a with ⟨ak, t1⟩
  rcases b with ⟨bk, t2⟩
  simp only at hk ht2
  rw [hk, ht2]

theorem mapInsert_mem {K V : Type} [DecidableEq K] :
    ∀ (m : List (MapEntryM K × NodeM K V)) (e0 : MapEntryM K) (n : NodeM K V),
      (∀ p ∈ m, mapEntryEq p.1 e0 = true → p.1 = e0) →
      ∀ p ∈ mapInsert m e0 n, p ∈ m ∨ p = (e0, n) := by
  intro m
  induction m with
  | nil =>
    intro e0 n _ p hp
    simp only [mapInsert] at hp
    rcases List.mem_cons.mp hp with hh | hh
    · exact Or.inr hh
    · simp at hh
  | cons pp ps ih =>
    intro e0 n heq p hp
    unfold mapInsert at hp
    by_cases hb : mapEntryEq pp.1 e0 = true
    · rw [if_pos hb] at hp
      rcases List.mem_cons.mp hp with hh | hh
      · right
        rw [hh, heq pp (List.mem_cons_self pp ps) hb]
      · exact Or.inl (List.mem_cons_of_mem pp hh)
    · rw [if_neg hb] at hp
      rcases List.mem_cons.mp hp with hh | hh
      · exact Or.inl (hh ▸ List.mem_cons_self pp ps)
      · rcases ih e0 n (fun p2 hp2 hb2 => heq p2 (List.mem_cons_of_mem pp hp2) hb2) p hh with
          hh2 | hh2
        · exact Or.inl (List.mem_cons_of_mem pp hh2)
        · exact Or.inr hh2

theorem mapInsert_self_mem {K V : Type} [DecidableEq K] :
    ∀ (m : List (MapEntryM K × NodeM K V)) (e0 : MapEntryM K) (n : NodeM K V),
      (∀ p ∈ m, mapEntryEq p.1 e0 = true → p.1 = e0) →
      (e0, n) ∈ mapInsert m e0 n := by
  intro m
  induction m with
  | nil => intro e0 n _; simp [mapInsert]
  | cons pp ps ih =>
    intro e0 n heq
    unfold mapInsert
    by_cases hb : mapEntryEq pp.1 e0 = true
    · rw [if_pos hb, heq pp (List.mem_cons_self pp ps) hb]
      exact List.mem_cons_self _ _
    · rw [if_neg hb]
      exact List.mem_cons_of_mem pp
        (ih e0 n (fun p2 hp2 hb2 => heq p2 (List.mem_cons_of_mem pp hp2) hb2))

theorem mapGet_mapInsert_self {K V : Type} [DecidableEq K] :
    ∀ (m : List (MapEntryM K × NodeM K V)) (e0 : MapEntryM K) (n : NodeM K V),
      mapEntryEq e0 e0 = true →
      mapGet (mapInsert m e0 n) e0 = some n := by
  intro m
  induction m with
  | nil =>
    intro e0 n hself
    unfold mapInsert mapGet
    rw [find?_cons_pos _ (e0, n) [] hself]
    rfl
  | cons pp ps ih =>
    intro e0 n hself
    unfold mapInsert
    by_cases hb : mapEntryEq pp.1 e0 = true
    · rw [if_pos hb]
      unfold mapGet
      rw [find?_cons_pos _ (pp.1, n) ps hb]
      rfl
    · rw [if_neg hb]
      unfold mapGet
      rw [find?_cons_neg _ pp (mapInsert ps e0 n) (Bool.eq_false_iff.mpr hb)]
      exact ih e0 n hself

theorem fifoInsert_items {K V : Type} (s : FifoCache K V) (k : K) (v : V)
    (tol : Flt) (hcap : 1 ≤ s.maxCapacity) :
    ∃ old, (fifoInsert s k v tol).items = old ++ [⟨k, tol, v⟩] ∧
      ∀ e ∈ old, e ∈ s.items := by
  simp only [fifoInsert]
  split_ifs with hc
  · rcases hit : s.items with _ | ⟨x, xs⟩
    · exfalso
      rw [hit] at hc
      simp at hc
      omega
    · refine ⟨xs, ?_, fun e he => ?_⟩
      · rfl
      · exact List.mem_cons_of_mem x he
  · exact ⟨s.items, rfl, fun e he => he⟩

/-- C1, counterexample: the claim fails in a reachable state. A fresh
FIFO cache of capacity 2 holding two entries with the same key `5.0`
(values 10 then 20, tolerance 1.0): `min_by` keeps the first of equally
minimal candidates, so `find(5.0)` right after `insert(5.0, 20, 1.0)`
returns `Some(10)`, the older entry's value, not `Some(20)`. -/
theorem C1_insert_then_find_counterexample :
    ((fifoNew Flt ℕ 2).map (fun s0 =>
      (fifoFind f32Cmp
        (fifoInsert (fifoInsert s0 (Flt.fin 5) 10 (Flt.fin 1)) (Flt.fin 5) 20 (Flt.fin 1))
        (Flt.fin 5)).1) = some (some (some 10))) ∧
    some (some (some (10 : ℕ))) ≠ some (some (some 20)) := by
  constructor
  · norm_num [fifoNew, fifoInsert, fifoFind, rustMinBy, minByFuzz, f32Cmp,
      defaultMatches, f32Fuzz, Flt.ltB, Flt.cmpF, Flt.cmpSS, Flt.ord3, Flt.subF,
      Flt.absF, List.filter]
  · decide

/-- C1, amended: insert-then-find returns the just-inserted value
provided the inserted key matches itself within the given tolerance and
the new entry is the unique strict minimum of fuzziness among the
surviving entries of the post-insert cache: every surviving entry other
than the new one — for FIFO every queue line but the newly pushed last
one, for LRU every index entry whose `MapEntry` is not `==`-equal to
the inserted `(key, tolerance)` — that matches the key does so with
strictly greater fuzziness. An entry evicted by this insert is not
quantified over, so overwrite-at-capacity runs are covered; an LRU
reinsertion replaces the node under the same `MapEntry` and is covered
too. (Without strict minimality the claim fails: on a tie `min_by`
keeps the first candidate.) For the LRU cache the inserted and stored
tolerances must be ordinary `f32` data (atomic, non-`nan`). -/
theorem C1_insert_then_find {K V : Type} [DecidableEq K] (acmp : ApproxCmp K)
    (sF : FifoCache K V) (sL : LruState K V) (k : K) (v : V) (tol : Flt)
    (hm : acmp.rmatches k k tol = true)
    (hwfk : Flt.wf (acmp.fuzz k k) = true)
    (hcapF : 1 ≤ sF.maxCapacity)
    (hstrictF : ∀ e ∈ (fifoInsert sF k v tol).items.dropLast,
      acmp.rmatches e.key k e.tol = true →
      Flt.wf (acmp.fuzz k e.key) = true ∧
      Flt.cmpF (acmp.fuzz k k) (acmp.fuzz k e.key) = some Ordering.lt)
    (htolatom : Flt.atomic tol = true)
    (htolnan : tol ≠ Flt.nan)
    (hatomL : ∀ p ∈ sL.map, Flt.atomic p.1.tol = true)
    (hstrictL : ∀ p ∈ (lruInsert sL k v tol).map,
      mapEntryEq p.1 ⟨k, tol⟩ = false →
      acmp.rmatches p.1.key k p.1.tol = true →
      Flt.wf (acmp.fuzz k p.1.key) = true ∧
      Flt.cmpF (acmp.fuzz k k) (acmp.fuzz k p.1.key) = some Ordering.lt) :
    (fifoFind acmp (fifoInsert sF k v tol) k).1 = some (some v) ∧
    (lruFind acmp (lruInsert sL k v tol) k).map Prod.fst = some (some v) := by
  constructor
  · obtain ⟨old, hitems, -⟩ := fifoInsert_items sF k v tol hcapF
    have hdrop : (fifoInsert sF k v tol).items.dropLast = old := by
      rw [hitems, List.dropLast_concat]
    have hnewf : (List.filter (fun e => acmp.rmatches e.key k e.tol)
        [(⟨k, tol, v⟩ : CacheLine K V)]) = [⟨k, tol, v⟩] := by
      simp [hm]
    have hmemold : ∀ e ∈ List.filter (fun e => acmp.rmatches e.key k e.tol) old,
        acmp.rmatches e.key k e.tol = true ∧
          e ∈ (fifoInsert sF k v tol).items.dropLast := by
      intro e he
      have hme := List.mem_filter.mp he
      refine ⟨hme.2, ?_⟩
      rw [hdrop]
      exact hme.1
    have hwfall : ∀ e ∈ (List.filter (fun e => acmp.rmatches e.key k e.tol) old ++
        [(⟨k, tol, v⟩ : CacheLine K V)]),
        Flt.wf (acmp.fuzz k e.key) = true := by
      intro e he
      rcases List.mem_append.mp he with hh | hh
      · obtain ⟨hmt, hms⟩ := hmemold e hh
        exact (hstrictF e hms hmt).1
      · rw [List.mem_singleton.mp hh]
        exact hwfk
    have hspec : specMinBy (fun e => acmp.fuzz k e.key)
        (List.filter (fun e => acmp.rmatches e.key k e.tol) old ++
          [(⟨k, tol, v⟩ : CacheLine K V)]) = some ⟨k, tol, v⟩ := by
      unfold specMinBy
      apply find?_eq_some_of_unique
      · exact List.mem_append.mpr (Or.inr (List.mem_singleton.mpr rfl))
      · simp only [List.all_eq_true]
        intro e2 he2
        rcases List.mem_append.mp he2 with hh | hh
        · obtain ⟨hmt, hms⟩ := hmemold e2 hh
          simp [(hstrictF e2 hms hmt).2]
        · have he2e := List.mem_singleton.mp hh
          subst he2e
          simp [cmpF_self hwfk]
      · intro e2 he2 hp2
        simp only [List.all_eq_true] at hp2
        rcases List.mem_append.mp he2 with hh | hh
        · exfalso
          obtain ⟨hmt, hms⟩ := hmemold e2 hh
          have hcon := hp2 (⟨k, tol, v⟩ : CacheLine K V)
            (List.mem_append.mpr (Or.inr (List.mem_singleton.mpr rfl)))
          simp [cmpF_gt_of_lt hwfk (hstrictF e2 hms hmt).1
            (hstrictF e2 hms hmt).2] at hcon
        · exact List.mem_singleton.mp hh
    simp only [fifoFind, hitems, List.filter_append, hnewf,
      rustMinBy_spec _ _ hwfall, hspec]
  · have harem : ∀ p ∈ (lruEvict sL).1, p ∈ sL.map := by
      intro p hp
      unfold lruEvict at hp
      split_ifs at hp with hc
      · rcases hlast : sL.list.getLast? with _ | t
        · rw [hlast] at hp
          exact hp
        · rw [hlast] at hp
          have hp2 : p ∈ mapRemove sL.map t.entry := hp
          exact List.mem_of_mem_eraseP hp2
      · exact hp
    have heq0 : ∀ p ∈ (lruEvict sL).1, mapEntryEq p.1 ⟨k, tol⟩ = true → p.1 = ⟨k, tol⟩ :=
      fun p hp hb => mapEntryEq_atomic (hatomL p (harem p hp)) htolatom hb
    have hself : mapEntryEq (⟨k, tol⟩ : MapEntryM K) ⟨k, tol⟩ = true := by
      unfold mapEntryEq
      rw [Bool.and_eq_true]
      exact ⟨decide_eq_true rfl, eqB_self_iff.mpr htolnan⟩
    have hmap : (lruInsert sL k v tol).map =
        mapInsert (lruEvict sL).1 ⟨k, tol⟩ ⟨sL.nextId, ⟨k, tol⟩, v⟩ := rfl
    have hatomP : ∀ p ∈ mapInsert (lruEvict sL).1 ⟨k, tol⟩ ⟨sL.nextId, ⟨k, tol⟩, v⟩,
        Flt.atomic p.1.tol = true := by
      intro p hp
      rcases mapInsert_mem _ _ _ heq0 p hp with hh | hh
      · exact hatomL p (harem p hh)
      · rw [hh]
        exact htolatom
    have hstrictP : ∀ p ∈ mapInsert (lruEvict sL).1 ⟨k, tol⟩ ⟨sL.nextId, ⟨k, tol⟩, v⟩,
        mapEntryEq p.1 ⟨k, tol⟩ = false →
        acmp.rmatches p.1.key k p.1.tol = true →
        Flt.wf (acmp.fuzz k p.1.key) = true ∧
        Flt.cmpF (acmp.fuzz k k) (acmp.fuzz k p.1.key) = some Ordering.lt := by
      intro p hp hbe hmt
      refine hstrictL p ?_ hbe hmt
      rw [hmap]
      exact hp
    have hwfall : ∀ p ∈ List.filter (fun p => acmp.rmatches p.1.key k p.1.tol)
        (mapInsert (lruEvict sL).1 ⟨k, tol⟩ ⟨sL.nextId, ⟨k, tol⟩, v⟩),
        Flt.wf (acmp.fuzz k p.1.key) = true := by
      intro p hp
      have hmp := List.mem_filter.mp hp
      cases hbe : mapEntryEq p.1 ⟨k, tol⟩
      · exact (hstrictP p hmp.1 hbe hmp.2).1
      · have hp1 : p.1 = ⟨k, tol⟩ := mapEntryEq_atomic (hatomP p hmp.1) htolatom hbe
        rw [hp1]
        exact hwfk
    have hpn : ((⟨k, tol⟩ : MapEntryM K), (⟨sL.nextId, ⟨k, tol⟩, v⟩ : NodeM K V)) ∈
        List.filter (fun p => acmp.rmatches p.1.key k p.1.tol)
          (mapInsert (lruEvict sL).1 ⟨k, tol⟩ ⟨sL.nextId, ⟨k, tol⟩, v⟩) := by
      rw [List.mem_filter]
      exact ⟨mapInsert_self_mem _ _ _ heq0, hm⟩
    obtain ⟨cand, hcand⟩ : ∃ cand, specMinBy (fun p => acmp.fuzz k p.1.key)
        (List.filter (fun p => acmp.rmatches p.1.key k p.1.tol)
          (mapInsert (lruEvict sL).1 ⟨k, tol⟩ ⟨sL.nextId, ⟨k, tol⟩, v⟩)) = some cand := by
      rcases hL : List.filter (fun p => acmp.rmatches p.1.key k p.1.tol)
          (mapInsert (lruEvict sL).1 ⟨k, tol⟩ ⟨sL.nextId, ⟨k, tol⟩, v⟩) with _ | ⟨x, xs⟩
      · rw [hL] at hpn
        exact absurd hpn (List.not_mem_nil _)
      · have hwf2 : ∀ a ∈ x :: xs,
            Flt.wf ((fun p : MapEntryM K × NodeM K V => acmp.fuzz k p.1.key) a) = true := by
          intro a ha
          rw [← hL] at ha
          exact hwfall a ha
        obtain ⟨c, hc⟩ := minByFuzz_isSome
          (fun p : MapEntryM K × NodeM K V => acmp.fuzz k p.1.key) xs x hwf2
        have hsp := minByFuzz_spec
          (fun p : MapEntryM K × NodeM K V => acmp.fuzz k p.1.key) xs x hwf2
        rw [hL]
        exact ⟨c, hsp.symm.trans hc⟩
    have hcand2 := hcand
    unfold specMinBy at hcand2
    have hcmem : cand ∈ List.filter (fun p => acmp.rmatches p.1.key k p.1.tol)
        (mapInsert (lruEvict sL).1 ⟨k, tol⟩ ⟨sL.nextId, ⟨k, tol⟩, v⟩) :=
      List.mem_of_find?_eq_some hcand2
    have hcprop := List.find?_some hcand2
    simp only [List.all_eq_true] at hcprop
    have hcmm := List.mem_filter.mp hcmem
    have hckey : mapEntryEq cand.1 ⟨k, tol⟩ = true := by
      cases hbe : mapEntryEq cand.1 ⟨k, tol⟩
      · exfalso
        have hstr := hstrictP cand hcmm.1 hbe hcmm.2
        have hcon := hcprop _ hpn
        simp [cmpF_gt_of_lt hwfk hstr.1 hstr.2] at hcon
      · rfl
    have hc1 : cand.1 = ⟨k, tol⟩ :=
      mapEntryEq_atomic (hatomP cand hcmm.1) htolatom hckey
    have hget : mapGet (mapInsert (lruEvict sL).1 ⟨k, tol⟩ ⟨sL.nextId, ⟨k, tol⟩, v⟩)
        cand.1 = some ⟨sL.nextId, ⟨k, tol⟩, v⟩ := by
      rw [hc1]
      exact mapGet_mapInsert_self _ _ _ hself
    simp only [lruFind, hmap, rustMinBy_spec _ _ hwfall, hcand, hget,
      Option.map_some']

/-- Closed witness for C1 at a fresh capacity-2 FIFO cache and a fresh
capacity-2 LRU cache with scalar key `5.0`, value `10`, tolerance `1.0`. -/
theorem C1_insert_then_find_witness :
    (fifoFind f32Cmp (fifoInsert ⟨2, []⟩ (Flt.fin 5) (10 : ℕ) (Flt.fin 1))
      (Flt.fin 5)).1 = some (some 10) ∧
    (lruFind f32Cmp (lruInsert ⟨2, [], [], 0⟩ (Flt.fin 5) (10 : ℕ) (Flt.fin 1))
      (Flt.fin 5)).map Prod.fst = some (some 10) :=
  C1_insert_then_find f32Cmp ⟨2, []⟩ ⟨2, [], [], 0⟩ (Flt.fin 5) 10 (Flt.fin 1)
    (by norm_num [f32Cmp, defaultMatches, f32Fuzz, Flt.ltB, Flt.cmpF, Flt.cmpSS,
      Flt.ord3, Flt.subF, Flt.absF])
    (by norm_num [f32Cmp, f32Fuzz, Flt.wf, Flt.subF, Flt.absF])
    (by norm_num)
    (by decide)
    (by decide)
    (by decide)
    (by simp)
    (by decide)

/-- Closed witness for C10: a miss on an empty dispatcher leaves it
unchanged. -/
theorem C10_lsh_miss_frame_witness :
    lshFind (fifoOps vecCmp) (fun x => x)
        (⟨⟨8, []⟩, [], 2⟩ : LshCache (FifoCache (List Flt) ℕ)) [] =
      some (none, ⟨⟨8, []⟩, [], 2⟩) :=
  (C10_lsh_miss_frame (fifoOps vecCmp) (fun x => x) ⟨⟨8, []⟩, [], 2⟩).1 [] (by decide)

/-! SimHash scaling invariance (C7): the computation lemmas evaluate the
kernel on all-finite inputs and on the symbolically normalized vectors,
and the sign of each projection is invariant under a positive scaling of
the key. -/

theorem sumMulLeft (r : ℚ) (l : List ℚ) :
    (l.map (fun x => r * x)).sum = r * l.sum := by
  induction l with
  | nil => simp
  | cons x xs ih => simp [ih, mul_add]

theorem map_fin_mul (α : ℚ) (l : List ℚ) :
    (finL l).map (Flt.mulF (Flt.fin α)) = finL (l.map (fun x => α * x)) := by
  unfold finL
  rw [List.map_map, List.map_map]
  exact List.map_congr_left (fun x _ => rfl)

theorem foldl_addF_fin (l : List ℚ) (c : ℚ) :
    (l.map Flt.fin).foldl Flt.addF (Flt.fin c) = Flt.fin (c + l.sum) := by
  induction l generalizing c with
  | nil => simp
  | cons x xs ih =>
    rw [List.map_cons, List.foldl_cons]
    show (xs.map Flt.fin).foldl Flt.addF (Flt.fin (c + x)) = Flt.fin (c + (x :: xs).sum)
    rw [ih, List.sum_cons, add_assoc]

theorem foldl_addF_scaled (l : List ℚ) (s c : ℚ) :
    ((l.map (fun x => Flt.scaled x s)).foldl Flt.addF (Flt.scaled c s)) =
      Flt.scaled (c + l.sum) s := by
  induction l generalizing c with
  | nil => simp
  | cons x xs ih =>
    rw [List.map_cons, List.foldl_cons]
    have hstep : Flt.addF (Flt.scaled c s) (Flt.scaled x s) = Flt.scaled (c + x) s := by
      simp [Flt.addF]
    rw [hstep, ih, List.sum_cons, add_assoc]

theorem dot_finL (a b : List ℚ) : dotF (finL a) (finL b) = Flt.fin (qdot a b) := by
  unfold dotF qdot takePairs kernelLen finL
  simp only [List.length_map]
  rw [List.zip_map, ← List.map_take, List.map_map]
  have h1 : (((a.zip b).take (8 * min (a.length / 8) (b.length / 8))).map
      ((fun p => Flt.mulF p.1 p.2) ∘ Prod.map Flt.fin Flt.fin)) =
      (((a.zip b).take (8 * min (a.length / 8) (b.length / 8))).map
        (fun p => Flt.fin (p.1 * p.2))) :=
    List.map_congr_left (fun p _ => by rcases p with ⟨x, y⟩; rfl)
  rw [h1, show (fun p : ℚ × ℚ => Flt.fin (p.1 * p.2)) =
      (Flt.fin ∘ fun p : ℚ × ℚ => p.1 * p.2) from rfl,
    ← List.map_map, foldl_addF_fin, zero_add]

theorem dot_scaled_fin (aq p : List ℚ) (s : ℚ) :
    dotF (aq.map (fun x => Flt.scaled x s)) (finL p) =
      (if takePairs aq p = [] then Flt.fin 0
       else Flt.scaled (((takePairs aq p).map (fun q => q.1 * q.2)).sum) s) := by
  unfold dotF takePairs kernelLen finL
  simp only [List.length_map]
  rw [List.zip_map, ← List.map_take, List.map_map]
  have h1 : (((aq.zip p).take (8 * min (aq.length / 8) (p.length / 8))).map
      ((fun q => Flt.mulF q.1 q.2) ∘ Prod.map (fun x => Flt.scaled x s) Flt.fin)) =
      (((aq.zip p).take (8 * min (aq.length / 8) (p.length / 8))).map
        (fun q => Flt.scaled (q.1 * q.2) s)) :=
    List.map_congr_left (fun q _ => by rcases q with ⟨x, y⟩; rfl)
  rw [h1]
  rcases htp : (aq.zip p).take (8 * min (aq.length / 8) (p.length / 8)) with _ | ⟨x, xs⟩
  · rfl
  · rw [if_neg (by simp)]
    rw [List.map_cons, List.foldl_cons]
    have hstep : Flt.addF (Flt.fin 0) (Flt.scaled (x.1 * x.2) s) =
        Flt.scaled (x.1 * x.2) s := by
      simp [Flt.addF]
    rw [hstep, show (fun q : ℚ × ℚ => Flt.scaled (q.1 * q.2) s) =
        ((fun z : ℚ => Flt.scaled z s) ∘ fun q : ℚ × ℚ => q.1 * q.2) from rfl,
      ← List.map_map, foldl_addF_scaled, List.map_cons, List.sum_cons]

theorem geB_scaled_zero (t s : ℚ) :
    Flt.geB (Flt.scaled t s) (Flt.fin 0) = decide (0 ≤ t) := by
  simp only [Flt.geB, Flt.cmpF, Flt.cmpSS]
  rcases lt_trichotomy t 0 with ht | ht | ht
  · simp [ht, not_le.mpr ht]
  · subst ht
    simp [Flt.ord3]
  · have hp : 0 < t * t := mul_pos ht ht
    simp [Flt.ord3, not_lt.mpr ht.le, not_lt.mpr hp.le, hp.ne', ht.le]

theorem qdot_map_mul (α : ℚ) (a : List ℚ) :
    qdot (a.map (fun x => α * x)) (a.map (fun x => α * x)) = α * α * qdot a a := by
  unfold qdot takePairs
  simp only [List.length_map]
  rw [List.zip_map, ← List.map_take, List.map_map]
  have h1 : (((a.zip a).take (8 * min (a.length / 8) (a.length / 8))).map
      ((fun p : ℚ × ℚ => p.1 * p.2) ∘ Prod.map (fun x => α * x) (fun x => α * x))) =
      (((a.zip a).take (8 * min (a.length / 8) (a.length / 8))).map
        (fun p => α * α * (p.1 * p.2))) :=
    List.map_congr_left (fun p _ => by
      rcases p with ⟨x, y⟩
      show (α * x) * (α * y) = α * α * (x * y)
      ring)
  rw [h1, show (fun p : ℚ × ℚ => α * α * (p.1 * p.2)) =
      ((fun z : ℚ => α * α * z) ∘ fun p : ℚ × ℚ => p.1 * p.2) from rfl,
    ← List.map_map, sumMulLeft]

theorem normalized_finL (a : List ℚ) (s : ℚ)
    (hd : dotF (finL a) (finL a) = Flt.fin s) (hs : 0 < s) :
    normalizedF (finL a) = (a.take (8 * (a.length / 8))).map (fun x => Flt.scaled x s) := by
  have hsqrt : Flt.sqrtF (Flt.fin s) = Flt.scaled s s := by
    simp [Flt.sqrtF, not_lt.mpr hs.le, hs.ne']
  have heq : Flt.eqB (Flt.scaled s s) (Flt.fin 0) = false := by
    have hp : 0 < s * s := mul_pos hs hs
    simp [Flt.eqB, Flt.cmpF, Flt.cmpSS, Flt.ord3, not_lt.mpr hs.le,
      not_lt.mpr hp.le, hp.ne']
  have hdiv : Flt.divF (Flt.fin 1) (Flt.scaled s s) = Flt.scaled 1 s := by
    have h1s : (1 : ℚ) * s / s = 1 := by field_simp
    simp [Flt.divF, hs.ne', h1s]
  simp only [normalizedF, hd, hsqrt, heq, Bool.false_eq_true, if_false, hdiv]
  unfold finL
  simp only [List.length_map]
  rw [← List.map_take, List.map_map]
  apply List.map_congr_left
  intro x _
  show Flt.mulF (Flt.fin x) (Flt.scaled 1 s) = Flt.scaled x s
  simp [Flt.mulF]

theorem takePairs_map_left (α : ℚ) (a p : List ℚ) :
    takePairs (a.map (fun x => α * x)) p =
      (takePairs a p).map (Prod.map (fun x => α * x) id) := by
  unfold takePairs
  simp only [List.length_map]
  rw [List.zip_map_left, ← List.map_take]

theorem signature_row_eq (α : ℚ) (hα : 0 < α) (A pr : List ℚ) (s s2 : ℚ) :
    Flt.geB (dotF ((A.map (fun x => α * x)).map (fun x => Flt.scaled x s2))
        (finL pr)) (Flt.fin 0) =
      Flt.geB (dotF (A.map (fun x => Flt.scaled x s)) (finL pr)) (Flt.fin 0) := by
  rw [dot_scaled_fin, dot_scaled_fin, takePairs_map_left]
  rcases htp : takePairs A pr with _ | ⟨x, xs⟩
  · simp
  · rw [if_neg (by simp), if_neg (by simp), geB_scaled_zero, geB_scaled_zero,
      decide_eq_decide, List.map_map]
    have h1 : ((x :: xs).map ((fun q : ℚ × ℚ => q.1 * q.2) ∘
        Prod.map (fun y => α * y) id)) =
        ((x :: xs).map (fun q => α * (q.1 * q.2))) :=
      List.map_congr_left (fun q _ => by
        rcases q with ⟨u, w⟩
        show (α * u) * (id w) = α * (u * w)
        simp [mul_assoc])
    rw [h1, show (fun q : ℚ × ℚ => α * (q.1 * q.2)) =
        ((fun z : ℚ => α * z) ∘ fun q : ℚ × ℚ => q.1 * q.2) from rfl,
      ← List.map_map, sumMulLeft]
    exact mul_nonneg_iff_of_pos_left hα

/-- C7: SimHash scaling invariance. For a hasher built by
`SimHashHasher::with_rng`, a key vector of ordinary finite `f32` data
with positive squared norm (as computed by the kernel's `dot`), and any
rational scalar `α > 0`, the LSH signature of the elementwise-scaled key
`α·v` equals the signature of `v`: the key is L2-normalized before being
projected, and the sign of each projection is invariant under positive
scaling. In the exact-arithmetic model a scaled finite vector stays
finite, so the claim's finiteness proviso is automatic. -/
theorem C7_signature_scaling (stream : ℕ → ℚ) (numHash dim : ℕ)
    (h : SimHashHasher) (hh : simHashWithRng stream numHash dim = some h)
    (vq : List ℚ) (α : ℚ) (hα : 0 < α)
    (hnorm : Flt.ltB (Flt.fin 0) (dotF (finL vq) (finL vq)) = true) :
    lshSignature h ((finL vq).map (Flt.mulF (Flt.fin α))) =
      lshSignature h (finL vq) := by
  have hspos : 0 < qdot vq vq := by
    rw [dot_finL] at hnorm
    simp only [Flt.ltB, Flt.cmpF, decide_eq_true_eq, Option.some.injEq] at hnorm
    unfold Flt.ord3 at hnorm
    split_ifs at hnorm with h1 h2
    exact h1
  have hspos2 : 0 < qdot (vq.map (fun x => α * x)) (vq.map (fun x => α * x)) := by
    rw [qdot_map_mul]
    exact mul_pos (mul_pos hα hα) hspos
  have hw : (finL vq).map (Flt.mulF (Flt.fin α)) = finL (vq.map (fun x => α * x)) :=
    map_fin_mul α vq
  have hn1 : normalizedF (finL vq) =
      (vq.take (8 * (vq.length / 8))).map (fun x => Flt.scaled x (qdot vq vq)) :=
    normalized_finL vq (qdot vq vq) (dot_finL vq vq) hspos
  have hn2 : normalizedF (finL (vq.map (fun x => α * x))) =
      ((vq.map (fun x => α * x)).take (8 * ((vq.map (fun x => α * x)).length / 8))).map
        (fun x => Flt.scaled x (qdot (vq.map (fun x => α * x)) (vq.map (fun x => α * x)))) :=
    normalized_finL (vq.map (fun x => α * x)) _ (dot_finL _ _) hspos2
  have htake : (vq.map (fun x => α * x)).take
        (8 * ((vq.map (fun x => α * x)).length / 8)) =
      (vq.take (8 * (vq.length / 8))).map (fun x => α * x) := by
    simp only [List.length_map]
    rw [← List.map_take]
  rcases hhas : h with ⟨hdim, hrows⟩
  have hrows_eq : hrows = (List.range numHash).map (fun i =>
      (List.range dim).map (fun j => Flt.fin (stream (i * dim + j)))) := by
    unfold simHashWithRng at hh
    split_ifs at hh with hd8
    rw [hhas] at hh
    have hinj := Option.some.inj hh
    injection hinj with hdE hrE
    exact hrE.symm
  rw [hw]
  simp only [lshSignature, simHashHash]
  rw [hn1, hn2, htake]
  apply List.map_congr_left
  intro proj hproj
  rw [hrows_eq] at hproj
  obtain ⟨i, hi, hieq⟩ := List.mem_map.mp hproj
  have hprL : proj = finL ((List.range dim).map (fun j => stream (i * dim + j))) := by
    rw [← hieq]
    unfold finL
    rw [List.map_map]
    exact List.map_congr_left (fun j _ => rfl)
  rw [hprL]
  exact signature_row_eq α hα (vq.take (8 * (vq.length / 8)))
    ((List.range dim).map (fun j => stream (i * dim + j))) (qdot vq vq)
    (qdot (vq.map (fun x => α * x)) (vq.map (fun x => α * x)))

/-- Closed witness for C7: the all-ones 8-dimensional vector, its
doubling, and a hasher of one all-ones hyperplane built by `with_rng`
from the constant unit stream. -/
theorem C7_signature_scaling_witness :
    simHashWithRng (fun _ => (1 : ℚ)) 1 8 = some ⟨8, [List.replicate 8 (Flt.fin 1)]⟩ ∧
    Flt.ltB (Flt.fin 0) (dotF (finL [1, 1, 1, 1, 1, 1, 1, 1])
      (finL [1, 1, 1, 1, 1, 1, 1, 1])) = true ∧
    lshSignature ⟨8, [List.replicate 8 (Flt.fin 1)]⟩
        ((finL [1, 1, 1, 1, 1, 1, 1, 1]).map (Flt.mulF (Flt.fin 2))) =
      lshSignature ⟨8, [List.replicate 8 (Flt.fin 1)]⟩ (finL [1, 1, 1, 1, 1, 1, 1, 1]) :=
  ⟨by decide,
   by norm_num [dotF, kernelLen, finL, List.zip, List.zipWith, Flt.mulF, Flt.addF,
     Flt.ltB, Flt.cmpF, Flt.cmpSS, Flt.ord3],
   C7_signature_scaling (fun _ => 1) 1 8 ⟨8, [List.replicate 8 (Flt.fin 1)]⟩
     (by decide) [1, 1, 1, 1, 1, 1, 1, 1] 2 (by norm_num)
     (by norm_num [dotF, kernelLen, finL, List.zip, List.zipWith, Flt.mulF, Flt.addF,
       Flt.ltB, Flt.cmpF, Flt.cmpSS, Flt.ord3])⟩

/-! LRU index/list agreement (C4): helper lemmas, preservation of the
reachable-state invariant by each instrumented step, and the claim. -/

theorem mapEntryEq_self {K : Type} [DecidableEq K] (e : MapEntryM K)
    (h : Flt.eqB e.tol e.tol = true) : mapEntryEq e e = true := by
  unfold mapEntryEq
  rw [Bool.and_eq_true]
  exact ⟨decide_eq_true rfl, h⟩

theorem mapEntryEq_true_symm {K : Type} [DecidableEq K] {a b : MapEntryM K}
    (h : mapEntryEq a b = true) : mapEntryEq b a = true := by
  unfold mapEntryEq at h ⊢
  rw [Bool.and_eq_true] at h ⊢
  exact ⟨decide_eq_true (of_decide_eq_true h.1).symm, eqB_true_symm h.2⟩

theorem mapEntryEq_false_symm {K : Type} [DecidableEq K] {a b : MapEntryM K}
    (h : mapEntryEq a b = false) : mapEntryEq b a = false := by
  cases hb : mapEntryEq b a
  · rfl
  · exact absurd (mapEntryEq_true_symm hb) (by simp [h])

theorem mapInsert_not_present {K V : Type} [DecidableEq K] :
    ∀ (m : List (MapEntryM K × NodeM K V)) (e : MapEntryM K) (n : NodeM K V),
      (∀ p ∈ m, mapEntryEq p.1 e = false) → mapInsert m e n = m ++ [(e, n)] := by
  intro m
  induction m with
  | nil => intro e n _; rfl
  | cons p ps ih =>
    intro e n h
    unfold mapInsert
    rw [if_neg (by simp [h p (List.mem_cons_self p ps)])]
    rw [ih e n (fun q hq => h q (List.mem_cons_of_mem p hq))]
    rfl

theorem lookup_cons_self {β : Type} (i : ℕ) (t : β) (l : List (ℕ × β)) :
    List.lookup i ((i, t) :: l) = some t := by
  simp [List.lookup]

theorem lookup_cons_ne {β : Type} (i j : ℕ) (t : β) (l : List (ℕ × β))
    (h : j ≠ i) : List.lookup j ((i, t) :: l) = List.lookup j l := by
  simp [List.lookup, beq_false_of_ne h]

theorem lruEvict_inv {K V : Type} [DecidableEq K] (s : LruState K V)
    (σ : NodeM K V → ℕ)
    (h1 : ∀ p ∈ s.map, p.1 = p.2.entry)
    (h2 : (s.map.map Prod.snd).Perm s.list)
    (h3 : (s.list.map NodeM.nid).Nodup)
    (h5 : ∀ p ∈ s.map, Flt.atomic p.1.tol = true ∧ Flt.eqB p.1.tol p.1.tol = true)
    (h6 : s.map.Pairwise (fun p q => mapEntryEq p.1 q.1 = false))
    (h8 : s.list.Pairwise (fun a b => σ b < σ a)) :
    (∀ p ∈ (lruEvict s).1, p ∈ s.map) ∧
    (((lruEvict s).1.map Prod.snd).Perm (lruEvict s).2) ∧
    ((lruEvict s).2.map NodeM.nid).Nodup ∧
    (∀ n ∈ (lruEvict s).2, n ∈ s.list) ∧
    (lruEvict s).1.Pairwise (fun p q => mapEntryEq p.1 q.1 = false) ∧
    (lruEvict s).2.Pairwise (fun a b => σ b < σ a) := by
  unfold lruEvict
  split_ifs with hc
  · rcases hlast : s.list.getLast? with _ | t
    · exact ⟨fun p hp => hp, h2, h3, fun n hn => hn, h6, h8⟩
    · show (∀ p ∈ mapRemove s.map t.entry, p ∈ s.map) ∧
        ((mapRemove s.map t.entry).map Prod.snd).Perm s.list.dropLast ∧
        (s.list.dropLast.map NodeM.nid).Nodup ∧
        (∀ n ∈ s.list.dropLast, n ∈ s.list) ∧
        (mapRemove s.map t.entry).Pairwise (fun p q => mapEntryEq p.1 q.1 = false) ∧
        s.list.dropLast.Pairwise (fun a b => σ b < σ a)
      obtain ⟨l1, hl1⟩ := List.getLast?_eq_some_iff.mp hlast
      have hdrop : s.list.dropLast = l1 := by rw [hl1, List.dropLast_concat]
      have htl : t ∈ s.list := by
        rw [hl1]
        exact List.mem_append.mpr (Or.inr (List.mem_singleton.mpr rfl))
      have htm : t ∈ s.map.map Prod.snd := (h2.mem_iff).mpr htl
      obtain ⟨pt, hptm, hpt2⟩ := List.mem_map.mp htm
      have hpt1 : pt.1 = t.entry := by rw [h1 pt hptm, hpt2]
      have hptP : mapEntryEq pt.1 t.entry = true := by
        rw [hpt1]
        refine mapEntryEq_self t.entry ?_
        have h52 := (h5 pt hptm).2
        rwa [hpt1] at h52
      obtain ⟨a, m1, m2, hno, hpa, hdec, her⟩ :=
        @List.exists_of_eraseP _ (fun p => mapEntryEq p.1 t.entry) s.map pt hptm hptP
      have hsymm : Symmetric
          (fun p q : MapEntryM K × NodeM K V => mapEntryEq p.1 q.1 = false) :=
        fun p q hpq => mapEntryEq_false_symm hpq
      have ham : a ∈ s.map := by
        rw [hdec]
        exact List.mem_append.mpr (Or.inr (List.mem_cons_self a m2))
      have hapt : a = pt := by
        by_contra hne
        have hfa := h6.forall hsymm ham hptm hne
        rw [hpt1] at hfa
        rw [hfa] at hpa
        exact Bool.noConfusion hpa
      subst hapt
      have hrem : mapRemove s.map t.entry = m1 ++ m2 := her
      rw [hrem, hdrop]
      have hsubm : ∀ p ∈ m1 ++ m2, p ∈ s.map := by
        intro p hp
        rw [hdec]
        rcases List.mem_append.mp hp with hh | hh
        · exact List.mem_append.mpr (Or.inl hh)
        · exact List.mem_append.mpr (Or.inr (List.mem_cons_of_mem a hh))
      have hsubl : (m1 ++ m2).Sublist (m1 ++ a :: m2) :=
        List.Sublist.append_left (List.sublist_cons_self a m2) m1
      have hperm : ((m1 ++ m2).map Prod.snd).Perm l1 := by
        have hp0 : ((m1 ++ a :: m2).map Prod.snd).Perm (l1 ++ [t]) := by
          rw [← hdec, ← hl1]
          exact h2
        have hp1 : ((m1 ++ a :: m2).map Prod.snd).Perm
            (t :: (m1 ++ m2).map Prod.snd) := by
          rw [List.map_append, List.map_cons, List.map_append, hpt2]
          exact List.perm_middle
        have hp2 : (l1 ++ [t]).Perm (t :: l1) := List.perm_append_singleton t l1
        exact ((hp1.symm.trans hp0).trans hp2).cons_inv
      have hl1sub : l1.Sublist s.list := by
        rw [hl1]
        exact List.sublist_append_left l1 [t]
      refine ⟨hsubm, hperm, ?_, ?_, ?_, ?_⟩
      · exact List.Nodup.sublist (hl1sub.map NodeM.nid) h3
      · intro n hn
        exact hl1sub.mem hn
      · have hpm : s.map.Pairwise (fun p q => mapEntryEq p.1 q.1 = false) := h6
        rw [hdec] at hpm
        exact hpm.sublist hsubl
      · exact h8.sublist hl1sub
  · exact ⟨fun p hp => hp, h2, h3, fun n hn => hn, h6, h8⟩

theorem lruInsert_exec_inv {K V : Type} [DecidableEq K] (E : LruExec K V)
    (k : K) (v : V) (tol : Flt) (b : Bool)
    (hatom : Flt.atomic tol = true) (heqb : Flt.eqB tol tol = true)
    (hanyF : ∀ p ∈ E.st.map, mapEntryEq p.1 ⟨k, tol⟩ = false)
    (hI : lruInv E) :
    lruInv ⟨lruInsert E.st k v tol, E.clock + 1,
      (E.st.nextId, E.clock) :: E.stamps, b⟩ := by
  obtain ⟨h1, h2, h3, h4, h5, h6, h7, h8⟩ := hI
  obtain ⟨e1, e2, e3, e4, e5, e6⟩ := lruEvict_inv E.st (stampOf E) h1 h2 h3 h5 h6 h8
  have hmins : mapInsert (lruEvict E.st).1 ⟨k, tol⟩ ⟨E.st.nextId, ⟨k, tol⟩, v⟩ =
      (lruEvict E.st).1 ++ [(⟨k, tol⟩, ⟨E.st.nextId, ⟨k, tol⟩, v⟩)] :=
    mapInsert_not_present _ _ _ (fun p hp => hanyF p (e1 p hp))
  unfold lruInv
  simp only [lruInsert]
  rw [hmins]
  refine ⟨?_, ?_, ?_, ?_, ?_, ?_, ?_, ?_⟩
  · intro p hp
    rcases List.mem_append.mp hp with hh | hh
    · exact h1 p (e1 p hh)
    · rw [List.mem_singleton.mp hh]
  · rw [List.map_append]
    exact (List.perm_append_singleton _ _).trans
      (e2.cons ⟨E.st.nextId, ⟨k, tol⟩, v⟩)
  · rw [List.map_cons, List.nodup_cons]
    refine ⟨fun hmem => ?_, e3⟩
    obtain ⟨m, hm, hmeq⟩ := List.mem_map.mp hmem
    have h4m := h4 m (e4 m hm)
    rw [hmeq] at h4m
    exact absurd h4m (lt_irrefl _)
  · intro n hn
    rcases List.mem_cons.mp hn with hh | hh
    · rw [hh]
      exact Nat.lt_succ_self _
    · exact Nat.lt_succ_of_lt (h4 n (e4 n hh))
  · intro p hp
    rcases List.mem_append.mp hp with hh | hh
    · exact h5 p (e1 p hh)
    · rw [List.mem_singleton.mp hh]
      exact ⟨hatom, heqb⟩
  · rw [List.pairwise_append]
    refine ⟨e5, List.pairwise_cons.mpr
      ⟨fun q hq => absurd hq (List.not_mem_nil q), List.Pairwise.nil⟩,
      fun p hp q hq => ?_⟩
    rw [List.mem_singleton.mp hq]
    exact hanyF p (e1 p hp)
  · intro n hn
    rcases List.mem_cons.mp hn with hh | hh
    · rw [hh]
      show (((E.st.nextId, E.clock) :: E.stamps).lookup E.st.nextId).getD 0 <
        E.clock + 1
      rw [lookup_cons_self]
      exact Nat.lt_succ_self _
    · have hne : n.nid ≠ E.st.nextId := Nat.ne_of_lt (h4 n (e4 n hh))
      show (((E.st.nextId, E.clock) :: E.stamps).lookup n.nid).getD 0 < E.clock + 1
      rw [lookup_cons_ne _ _ _ _ hne]
      exact Nat.lt_succ_of_lt (h7 n (e4 n hh))
  · rw [List.pairwise_cons]
    constructor
    · intro m hm
      have hne : m.nid ≠ E.st.nextId := Nat.ne_of_lt (h4 m (e4 m hm))
      show (((E.st.nextId, E.clock) :: E.stamps).lookup m.nid).getD 0 <
        (((E.st.nextId, E.clock) :: E.stamps).lookup E.st.nextId).getD 0
      rw [lookup_cons_ne _ _ _ _ hne, lookup_cons_self]
      exact h7 m (e4 m hm)
    · refine e6.imp_of_mem ?_
      intro x y hx hy hxy
      have hnex : x.nid ≠ E.st.nextId := Nat.ne_of_lt (h4 x (e4 x hx))
      have hney : y.nid ≠ E.st.nextId := Nat.ne_of_lt (h4 y (e4 y hy))
      show (((E.st.nextId, E.clock) :: E.stamps).lookup y.nid).getD 0 <
        (((E.st.nextId, E.clock) :: E.stamps).lookup x.nid).getD 0
      rw [lookup_cons_ne _ _ _ _ hnex, lookup_cons_ne _ _ _ _ hney]
      exact hxy

theorem lruPromote_exec_inv {K V : Type} [DecidableEq K] (E : LruExec K V)
    (node : NodeM K V) (b : Bool)
    (hnm : node ∈ E.st.map.map Prod.snd)
    (hI : lruInv E) :
    lruInv ⟨⟨E.st.maxCapacity, E.st.map,
        node :: E.st.list.eraseP (fun m => m.nid == node.nid), E.st.nextId⟩,
      E.clock + 1, (node.nid, E.clock) :: E.stamps, b⟩ := by
  obtain ⟨h1, h2, h3, h4, h5, h6, h7, h8⟩ := hI
  have hnl : node ∈ E.st.list := (h2.mem_iff).mp hnm
  have hpsat : (fun m : NodeM K V => m.nid == node.nid) node = true := by simp
  obtain ⟨a, l1, l2, hno, hpa, hdec, her⟩ :=
    @List.exists_of_eraseP _ (fun m => m.nid == node.nid) E.st.list node hnl hpsat
  have ham : a ∈ E.st.list := by
    rw [hdec]
    exact List.mem_append.mpr (Or.inr (List.mem_cons_self a l2))
  have hanid : a.nid = node.nid := by simpa using hpa
  have hanode : a = node := List.inj_on_of_nodup_map h3 ham hnl hanid
  subst hanode
  have hnodup2 : (a.nid :: (l1 ++ l2).map NodeM.nid).Nodup := by
    have hx : ((l1 ++ a :: l2).map NodeM.nid).Nodup := by
      rw [← hdec]
      exact h3
    rw [List.map_append, List.map_cons] at hx
    rw [List.map_append]
    exact List.perm_middle.nodup hx
  have hnotin : ∀ m ∈ l1 ++ l2, m.nid ≠ a.nid := by
    intro m hm heqn
    have hhead := (List.nodup_cons.mp hnodup2).1
    exact hhead (heqn ▸ List.mem_map_of_mem NodeM.nid hm)
  have hsub : ∀ m ∈ l1 ++ l2, m ∈ E.st.list := by
    intro m hm
    rw [hdec]
    rcases List.mem_append.mp hm with hh | hh
    · exact List.mem_append.mpr (Or.inl hh)
    · exact List.mem_append.mpr (Or.inr (List.mem_cons_of_mem a hh))
  unfold lruInv
  simp only
  rw [her]
  refine ⟨h1, ?_, ?_, ?_, h5, h6, ?_, ?_⟩
  · have hp := h2
    rw [hdec] at hp
    exact hp.trans List.perm_middle
  · rw [List.map_cons]
    exact hnodup2
  · intro n hn
    rcases List.mem_cons.mp hn with hh | hh
    · rw [hh]
      exact h4 a hnl
    · exact h4 n (hsub n hh)
  · intro n hn
    rcases List.mem_cons.mp hn with hh | hh
    · rw [hh]
      show (((a.nid, E.clock) :: E.stamps).lookup a.nid).getD 0 < E.clock + 1
      rw [lookup_cons_self]
      exact Nat.lt_succ_self _
    · show (((a.nid, E.clock) :: E.stamps).lookup n.nid).getD 0 < E.clock + 1
      rw [lookup_cons_ne _ _ _ _ (hnotin n hh)]
      exact Nat.lt_succ_of_lt (h7 n (hsub n hh))
  · rw [List.pairwise_cons]
    constructor
    · intro m hm
      show (((a.nid, E.clock) :: E.stamps).lookup m.nid).getD 0 <
        (((a.nid, E.clock) :: E.stamps).lookup a.nid).getD 0
      rw [lookup_cons_ne _ _ _ _ (hnotin m hm), lookup_cons_self]
      exact h7 m (hsub m hm)
    · have hsubl : (l1 ++ l2).Sublist (l1 ++ a :: l2) :=
        List.Sublist.append_left (List.sublist_cons_self a l2) l1
      have h8x : (l1 ++ l2).Pairwise (fun x y => stampOf E y < stampOf E x) := by
        have hp := h8
        rw [hdec] at hp
        exact hp.sublist hsubl
      refine h8x.imp_of_mem ?_
      intro x y hx hy hxy
      show (((a.nid, E.clock) :: E.stamps).lookup y.nid).getD 0 <
        (((a.nid, E.clock) :: E.stamps).lookup x.nid).getD 0
      rw [lookup_cons_ne _ _ _ _ (hnotin x hx), lookup_cons_ne _ _ _ _ (hnotin y hy)]
      exact hxy

theorem lruStep_inv {K V : Type} [DecidableEq K] (acmp : ApproxCmp K)
    (E : LruExec K V) (op : LruOp K V) (IH : E.ok = true → lruInv E) :
    (lruStep acmp E op).ok = true → lruInv (lruStep acmp E op) := by
  rcases op with ⟨k, v, tol⟩ | q
  · intro hok
    have hok2 : (E.ok && (Flt.atomic tol && Flt.eqB tol tol &&
        !(E.st.map.any (fun p => mapEntryEq p.1 ⟨k, tol⟩)))) = true := hok
    simp only [Bool.and_eq_true, Bool.not_eq_true'] at hok2
    obtain ⟨hEok, ⟨hatom, heqb⟩, hany⟩ := hok2
    have hanyF : ∀ p ∈ E.st.map, mapEntryEq p.1 ⟨k, tol⟩ = false := by
      intro p hp
      cases hv : mapEntryEq p.1 ⟨k, tol⟩
      · rfl
      · exact absurd hv (List.any_eq_false.mp hany p hp)
    exact lruInsert_exec_inv E k v tol _ hatom heqb hanyF (IH hEok)
  · show (lruStep acmp E (LruOp.qry q)).ok = true → lruInv (lruStep acmp E (LruOp.qry q))
    simp only [lruStep]
    rcases hf : lruFind acmp E.st q with _ | ⟨w, s2⟩
    · intro hok
      exact Bool.noConfusion hok
    · rcases w with _ | val
      · intro hok
        have hs2 : s2 = E.st := by
          unfold lruFind at hf
          rcases hrm : rustMinBy (fun p => acmp.fuzz q p.1.key)
              (E.st.map.filter (fun p => acmp.rmatches p.1.key q p.1.tol)) with _ | oc
          · simp only [hrm] at hf
            exact Option.noConfusion hf
          · rcases oc with _ | cand
            · simp only [hrm] at hf
              have hinj := Option.some.inj hf
              injection hinj with ha hb
              exact hb.symm
            · rcases hg : mapGet E.st.map cand.1 with _ | node
              · simp only [hrm, hg] at hf
                have hinj := Option.some.inj hf
                injection hinj with ha hb
                exact hb.symm
              · simp only [hrm, hg] at hf
                have hinj := Option.some.inj hf
                injection hinj with ha hb
                exact Option.noConfusion ha
        subst hs2
        exact IH hok
      · intro hok
        unfold lruFind at hf
        rcases hrm : rustMinBy (fun p => acmp.fuzz q p.1.key)
            (E.st.map.filter (fun p => acmp.rmatches p.1.key q p.1.tol)) with _ | oc
        · simp only [hrm] at hf
          exact Option.noConfusion hf
        · rcases oc with _ | cand
          · simp only [hrm] at hf
            have hinj := Option.some.inj hf
            injection hinj with ha hb
            exact Option.noConfusion ha
          · rcases hg : mapGet E.st.map cand.1 with _ | node
            · simp only [hrm, hg] at hf
              have hinj := Option.some.inj hf
              injection hinj with ha hb
              exact Option.noConfusion ha
            · simp only [hrm, hg] at hf
              have hinj := Option.some.inj hf
              injection hinj with ha hb
              have hnm : node ∈ E.st.map.map Prod.snd := by
                unfold mapGet at hg
                rcases hfind : E.st.map.find? (fun p => mapEntryEq p.1 cand.1)
                    with _ | pn
                · rw [hfind] at hg
                  exact Option.noConfusion hg
                · rw [hfind] at hg
                  have hpn := List.mem_of_find?_eq_some hfind
                  have hval : pn.2 = node := Option.some.inj hg
                  exact hval ▸ List.mem_map_of_mem Prod.snd hpn
              rw [← hb] at hok ⊢
              exact lruPromote_exec_inv E node E.ok hnm (IH hok)

theorem lruInv_init {K V : Type} [DecidableEq K] (cap : ℕ) :
    lruInv (⟨⟨cap, [], [], 0⟩, 0, [], true⟩ : LruExec K V) := by
  unfold lruInv
  refine ⟨fun p hp => absurd hp (List.not_mem_nil p), by simp, by simp,
    fun n hn => absurd hn (List.not_mem_nil n),
    fun p hp => absurd hp (List.not_mem_nil p), List.Pairwise.nil,
    fun n hn => absurd hn (List.not_mem_nil n), List.Pairwise.nil⟩

theorem lruRun_inv {K V : Type} [DecidableEq K] (acmp : ApproxCmp K)
    (cap : ℕ) (ops : List (LruOp K V)) :
    (lruRun acmp cap ops).ok = true → lruInv (lruRun acmp cap ops) := by
  suffices h : ∀ (l : List (LruOp K V)) (E : LruExec K V),
      (E.ok = true → lruInv E) →
      ((l.foldl (lruStep acmp) E).ok = true → lruInv (l.foldl (lruStep acmp) E)) by
    exact h ops ⟨⟨cap, [], [], 0⟩, 0, [], true⟩ (fun _ => lruInv_init cap)
  intro l
  induction l with
  | nil => intro E hE; exact hE
  | cons op ls ih =>
    intro E hE
    exact ih (lruStep acmp E op) (lruStep_inv acmp E op hE)

/-- C4, counterexample: the claim fails for a sequence that reinserts a
`(key, tolerance)` pair already present. Capacity-2 LRU, scalar keys,
tolerance `1.0`: insert `(1.0, 1)`, `(1.0, 2)` (reinsertion leaves the
stale first node in the recency list), `(2.0, 3)`, `(3.0, 4)` (eviction
removes the live entry for key `1.0` instead of the stale node's). The
key `1.0` is then held by a node of the recency list but absent from
the lookup index. -/
theorem C4_agreement_counterexample :
    ((⟨Flt.fin 1, Flt.fin 1⟩ : MapEntryM Flt) ∈
      (lruInsert (lruInsert (lruInsert (lruInsert (⟨2, [], [], 0⟩ : LruState Flt ℕ)
        (Flt.fin 1) 1 (Flt.fin 1)) (Flt.fin 1) 2 (Flt.fin 1)) (Flt.fin 2) 3 (Flt.fin 1))
        (Flt.fin 3) 4 (Flt.fin 1)).list.map (fun n => n.entry)) ∧
    ((⟨Flt.fin 1, Flt.fin 1⟩ : MapEntryM Flt) ∉
      (lruInsert (lruInsert (lruInsert (lruInsert (⟨2, [], [], 0⟩ : LruState Flt ℕ)
        (Flt.fin 1) 1 (Flt.fin 1)) (Flt.fin 1) 2 (Flt.fin 1)) (Flt.fin 2) 3 (Flt.fin 1))
        (Flt.fin 3) 4 (Flt.fin 1)).map.map Prod.fst) := by
  decide

/-- C4, amended: along any instrumented run of inserts and finds that
stays in the `ok` regime — no panic, and every insert carries an
ordinary self-`==` (non-`nan`) tolerance and a `(key, tolerance)` not
already `==`-equal to a stored index key (no reinsertion of a present
pair) — the multiset of keys of the lookup index equals the multiset of
`MapEntry`s held by the recency list's nodes, and head-to-tail traversal
of the list enumerates entries in strictly decreasing order of the ghost
stamp of their creation or last promotion, i.e. from most recently to
least recently used. -/
theorem C4_lru_list_agreement {K V : Type} [DecidableEq K] (acmp : ApproxCmp K)
    (cap : ℕ) (ops : List (LruOp K V))
    (hok : (lruRun acmp cap ops).ok = true) :
    ((lruRun acmp cap ops).st.map.map Prod.fst).Perm
      ((lruRun acmp cap ops).st.list.map (fun n => n.entry)) ∧
    (lruRun acmp cap ops).st.list.Pairwise
      (fun a b => stampOf (lruRun acmp cap ops) b < stampOf (lruRun acmp cap ops) a) := by
  obtain ⟨h1, h2, h3, h4, h5, h6, h7, h8⟩ := lruRun_inv acmp cap ops hok
  refine ⟨?_, h8⟩
  have hmapeq : (lruRun acmp cap ops).st.map.map Prod.fst =
      (lruRun acmp cap ops).st.map.map (fun p => p.2.entry) :=
    List.map_congr_left (fun p hp => h1 p hp)
  rw [hmapeq, show (fun p : MapEntryM K × NodeM K V => p.2.entry) =
      ((fun n : NodeM K V => n.entry) ∘ Prod.snd) from rfl, ← List.map_map]
  exact h2.map (fun n => n.entry)

/-- Closed witness for C4 at a two-insert run (distinct keys, tolerance
`1.0`) on a capacity-2 LRU cache. -/
theorem C4_lru_list_agreement_witness :
    (lruRun f32Cmp 2 [LruOp.ins (Flt.fin 1) (1 : ℕ) (Flt.fin 1),
        LruOp.ins (Flt.fin 2) 2 (Flt.fin 1)]).ok = true ∧
    (((lruRun f32Cmp 2 [LruOp.ins (Flt.fin 1) (1 : ℕ) (Flt.fin 1),
        LruOp.ins (Flt.fin 2) 2 (Flt.fin 1)]).st.map.map Prod.fst).Perm
      ((lruRun f32Cmp 2 [LruOp.ins (Flt.fin 1) (1 : ℕ) (Flt.fin 1),
        LruOp.ins (Flt.fin 2) 2 (Flt.fin 1)]).st.list.map (fun n => n.entry)) ∧
    (lruRun f32Cmp 2 [LruOp.ins (Flt.fin 1) (1 : ℕ) (Flt.fin 1),
        LruOp.ins (Flt.fin 2) 2 (Flt.fin 1)]).st.list.Pairwise
      (fun a b => stampOf (lruRun f32Cmp 2 [LruOp.ins (Flt.fin 1) (1 : ℕ) (Flt.fin 1),
        LruOp.ins (Flt.fin 2) 2 (Flt.fin 1)]) b <
        stampOf (lruRun f32Cmp 2 [LruOp.ins (Flt.fin 1) (1 : ℕ) (Flt.fin 1),
        LruOp.ins (Flt.fin 2) 2 (Flt.fin 1)]) a)) :=
  ⟨by decide, C4_lru_list_agreement f32Cmp 2
    [LruOp.ins (Flt.fin 1) (1 : ℕ) (Flt.fin 1),
     LruOp.ins (Flt.fin 2) 2 (Flt.fin 1)] (by decide)⟩

end Proximity
